import Mathlib

/-!
Shallow embedding of `src/lib.rs` of the `dep-tree` crate.

The crate builds a dependency graph from a `BTreeMap<DepId, Vec<DepId>>`
(`DepTreeBuilder`), validates it (self-dependency check, depth-first circular
dependency check) in `DepTreeBuilder::build`, and answers queries on the
validated graph (`DepTree`).

Modelling choices:
* `DepId = (u64, usize)` becomes `Nat × Nat`.  No arithmetic is ever performed
  on identifiers (they are only compared), so machine-integer overflow is
  irrelevant and `Nat` is a faithful carrier.
* A `BTreeMap<DepId, Vec<DepId>>` is modelled as its ordered entry list
  `List (DepId × List DepId)`; iteration over the map is iteration over the
  list, and `BTreeMap::get` is first-match lookup.  Statements that depend on
  the map's ordering carry the `SortedEdge` hypothesis (keys strictly
  ascending), which every real `BTreeMap` satisfies.
* The recursive traversals of the source (`has_circular_dependency`,
  `count_dependencies`, `collect_dependencies`) recurse through the graph and
  are guarded by visited/stack sets; in Lean they are written with an explicit
  fuel parameter returning `none` on fuel exhaustion.  The public operations
  run them with the canonical fuel `edgeFuel`, proved sufficient
  (`hcdOpt_isSome`, `collectOpt_isSome`, `countOpt_isSome`), so the fueled
  functions are total at every call site of the embedding.
-/

/-- `pub type DepId = (u64, usize);` -/
abbrev DepId := Nat × Nat

/-- The strict lexicographic order on `DepId` used by Rust's
`Ord for (u64, usize)`, hence by `BTreeMap<DepId, _>`. -/
def idLt (a b : DepId) : Bool :=
  decide (a.1 < b.1) || (decide (a.1 = b.1) && decide (a.2 < b.2))

/-- The ordered entry list of a `BTreeMap<DepId, Vec<DepId>>`. -/
abbrev EdgeMap := List (DepId × List DepId)

/-- Keys of the edge map, in iteration order. -/
def keysOf (m : EdgeMap) : List DepId := m.map (fun e => e.1)

/-- A list models a `BTreeMap` when its keys are strictly ascending. -/
def SortedEdge (m : EdgeMap) : Prop :=
  m.Pairwise (fun e f => idLt e.1 f.1 = true)

/-- `BTreeMap::get`: the value of the first (unique) entry with the given key. -/
def mapGet (m : EdgeMap) (k : DepId) : Option (List DepId) :=
  (m.find? (fun e => e.1 == k)).map (fun e => e.2)

/-- The dependency list of `k`, `[]` when `k` is not a key. -/
def depsL (m : EdgeMap) (k : DepId) : List DepId :=
  (mapGet m k).getD []

/-- Every identifier occurring in the map (keys, then all dependency lists);
used only to size the canonical fuel. -/
def allIds (m : EdgeMap) : List DepId :=
  keysOf m ++ (m.map (fun e => e.2)).flatten

/-- Canonical fuel.  The fueled traversals below consume one fuel unit per
recursive call (also across the elements of a dependency list, so that they
are structurally recursive on the fuel and hence reduce in the kernel); a
quadratic budget in the number of identifier occurrences is proved sufficient
(`hcdOpt_isSome`, `collectOpt_isSome`, `countOpt_isSome`). -/
def edgeFuel (m : EdgeMap) : Nat :=
  (allIds m).length * ((allIds m).length + 1) + 1

/-- `DepTreeBuilderError` from the source, with the cycle trace kept both as
the raw stack and as the formatted string the source produces. -/
inductive DepTreeBuilderError where
  | selfDependency : DepId → DepTreeBuilderError
  | circularDependency : DepId → DepId → String → DepTreeBuilderError
deriving DecidableEq, Repr

/-- `format!("({id}, {version})")` applied to one identifier. -/
def fmtId (p : DepId) : String :=
  "(" ++ toString p.1 ++ ", " ++ toString p.2 ++ ")"

/-- `Vec::join(" -> ")` on already formatted identifiers. -/
def joinArrow : List String → String
  | [] => ""
  | [s] => s
  | s :: rest => s ++ " -> " ++ joinArrow rest

/-- The trace string built by `build` from the detection-time stack. -/
def traceStr (stack : List DepId) : String :=
  joinArrow (stack.map fmtId)

mutual
/-- `DepTreeBuilder::has_circular_dependency`.  State `(visited, stack)` is
threaded explicitly; the result is `(found, visited, stack)`.  `none` signals
fuel exhaustion (proved unreachable for fuel `edgeFuel`). -/
def hcdOpt (fuel : Nat) (tree : EdgeMap) (unit : DepId)
    (vis stk : List DepId) : Option (Bool × List DepId × List DepId) :=
  match fuel with
  | 0 => none
  | f + 1 =>
    if unit ∈ vis then some (false, vis, stk)
    else if unit ∈ stk then some (true, vis, stk)
    else
      match hcdList f tree (depsL tree unit) vis (stk ++ [unit]) with
      | none => none
      | some (true, v, s) => some (true, v, s)
      | some (false, v, s) => some (false, v ++ [unit], s.dropLast)

/-- The `for &dep in deps` loop inside `has_circular_dependency`. -/
def hcdList (fuel : Nat) (tree : EdgeMap) (ds : List DepId)
    (vis stk : List DepId) : Option (Bool × List DepId × List DepId) :=
  match ds with
  | [] => some (false, vis, stk)
  | d :: rest =>
    match fuel with
    | 0 => none
    | f + 1 =>
      match hcdOpt f tree d vis stk with
      | none => none
      | some (true, v, s) => some (true, v, s)
      | some (false, v, s) => hcdList f tree rest v s
end

/-- `DepTree` wraps the validated edge map (`Rc<BTreeMap<..>>`). -/
structure DepTree where
  inner : EdgeMap
deriving DecidableEq, Repr

/-- `DepTree::new`: public, no validation. -/
def DepTree.new (inner : EdgeMap) : DepTree := ⟨inner⟩

/-- `DepTreeBuilder`: the shared accumulator, reduced to its map content. -/
structure DepTreeBuilder where
  inner : EdgeMap
deriving DecidableEq, Repr

/-- `BTreeMap::entry(id)`: vacant ⇒ insert `ds`, occupied ⇒ extend with `ds`;
insertion keeps the entry list ordered. -/
def insertMerge : EdgeMap → DepId → List DepId → EdgeMap
  | [], k, ds => [(k, ds)]
  | (a, es) :: t, k, ds =>
    if k = a then (a, es ++ ds) :: t
    else if idLt k a then (k, ds) :: (a, es) :: t
    else (a, es) :: insertMerge t k ds

/-- `DepTreeBuilder::with_dep`. -/
def DepTreeBuilder.with_dep (b : DepTreeBuilder) (id : DepId)
    (deps : List DepId) : DepTreeBuilder :=
  ⟨insertMerge b.inner id deps⟩

/-- The `for (unit, deps) in inner` loop of `DepTreeBuilder::build`: the
self-dependency check, then the circular-dependency check (fresh stack,
persistent `visited`), accumulating the `resolved` map. -/
def buildLoopOpt (tree : EdgeMap) :
    EdgeMap → List DepId → Option (Except DepTreeBuilderError EdgeMap)
  | [], _ => some (.ok [])
  | (unit, deps) :: rest, vis =>
    if unit ∈ deps then some (.error (.selfDependency unit))
    else
      match hcdOpt (edgeFuel tree) tree unit vis [] with
      | none => none
      | some (true, _, s) =>
        some (.error (.circularDependency (s.head?.getD (0, 0))
          (s.getLast?.getD (0, 0)) (traceStr s)))
      | some (false, v, _) =>
        (buildLoopOpt tree rest v).map (fun r => r.map (fun l => (unit, deps) :: l))

/-- `DepTreeBuilder::build`.  The `getD` default is unreachable:
`buildLoopOpt` is total at canonical fuel (`buildLoopOpt_isSome`). -/
def DepTreeBuilder.build (b : DepTreeBuilder) :
    Except DepTreeBuilderError DepTree :=
  ((buildLoopOpt b.inner b.inner []).getD (.ok [])).map DepTree.new

mutual
/-- `DepTree::collect_dependencies`: result is `(visited, out)`.  Note the
source pushes every `dep` it sees onto `dependencies` before the recursive
call; only re-expansion is guarded by `visited`. -/
def collectOpt (fuel : Nat) (tree : EdgeMap) (id : DepId)
    (vis out : List DepId) : Option (List DepId × List DepId) :=
  match fuel with
  | 0 => none
  | f + 1 =>
    if id ∈ vis then some (vis, out)
    else
      match mapGet tree id with
      | none => some (id :: vis, out)
      | some deps => collectList f tree deps (id :: vis) out

/-- The `for dep in deps` loop inside `collect_dependencies`. -/
def collectList (fuel : Nat) (tree : EdgeMap) (ds : List DepId)
    (vis out : List DepId) : Option (List DepId × List DepId) :=
  match ds with
  | [] => some (vis, out)
  | d :: rest =>
    match fuel with
    | 0 => none
    | f + 1 =>
      match collectOpt f tree d vis (out ++ [d]) with
      | none => none
      | some (v, o) => collectList f tree rest v o
end

mutual
/-- `DepTree::count_dependencies`: result `(count, visited)`. -/
def countOpt (fuel : Nat) (tree : EdgeMap) (id : DepId)
    (vis : List DepId) : Option (Nat × List DepId) :=
  match fuel with
  | 0 => none
  | f + 1 =>
    if id ∈ vis then some (0, vis)
    else
      match mapGet tree id with
      | none => some (0, id :: vis)
      | some deps => countList f tree deps (id :: vis)

/-- `deps.iter().map(|dep| 1 + count(dep)).sum()`, threading `visited`. -/
def countList (fuel : Nat) (tree : EdgeMap) (ds : List DepId)
    (vis : List DepId) : Option (Nat × List DepId) :=
  match ds with
  | [] => some (0, vis)
  | d :: rest =>
    match fuel with
    | 0 => none
    | f + 1 =>
      match countOpt f tree d vis with
      | none => none
      | some (c, v) =>
        match countList f tree rest v with
        | none => none
        | some (cs, v2) => some (1 + c + cs, v2)
end

/-- `DepTree::dependencies_of`. -/
def DepTree.dependencies_of (t : DepTree) (unit : DepId) : List DepId :=
  ((collectOpt (edgeFuel t.inner) t.inner unit [] []).getD ([], [])).2

/-- `DepTree::dependents_of`: keys whose dependency list contains `unit`,
in map iteration order. -/
def DepTree.dependents_of (t : DepTree) (unit : DepId) : List DepId :=
  (t.inner.filter (fun e => unit ∈ e.2)).map (fun e => e.1)

/-- `count_dependencies` from a fresh visited set, as each ranking query
invokes it. -/
def countD (m : EdgeMap) (id : DepId) : Nat :=
  ((countOpt (edgeFuel m) m id []).getD (0, [])).1

/-- One insertion step of a stable sort descending by count: `x` passes over
exactly the entries with strictly larger count, so tied entries keep their
original relative order, as Rust's stable `sort_by(|a, b| b.1.cmp(&a.1))`
guarantees. -/
def insertByDesc (x : DepId × Nat) : List (DepId × Nat) → List (DepId × Nat)
  | [] => [x]
  | y :: t => if x.2 < y.2 then y :: insertByDesc x t else x :: y :: t

/-- Stable sort descending by count, modelling
`sort_by(|a, b| b.1.cmp(&a.1))` (Rust's slice sort is stable). -/
def sortDesc (l : List (DepId × Nat)) : List (DepId × Nat) :=
  l.foldr insertByDesc []

/-- One insertion step of a stable sort ascending by count. -/
def insertByAsc (x : DepId × Nat) : List (DepId × Nat) → List (DepId × Nat)
  | [] => [x]
  | y :: t => if y.2 < x.2 then y :: insertByAsc x t else x :: y :: t

/-- Stable sort ascending by count, modelling
`sort_by(|a, b| a.1.cmp(&b.1))`. -/
def sortAsc (l : List (DepId × Nat)) : List (DepId × Nat) :=
  l.foldr insertByAsc []

/-- The unsorted `(unit, count_dependencies(unit))` list both ranking-by-count
queries start from: keys in map iteration order, each counted with a fresh
visited set. -/
def dependencyCounts (t : DepTree) : List (DepId × Nat) :=
  (keysOf t.inner).map (fun id => (id, countD t.inner id))

/-- `DepTree::most_dependencies`. -/
def DepTree.most_dependencies (t : DepTree) : List (DepId × Nat) :=
  sortDesc (dependencyCounts t)

/-- `DepTree::least_dependencies`. -/
def DepTree.least_dependencies (t : DepTree) : List (DepId × Nat) :=
  sortAsc (dependencyCounts t)

/-- `*dependent_map.entry(dep).or_insert(0) += 1` on the ordered map. -/
def bumpKey : List (DepId × Nat) → DepId → List (DepId × Nat)
  | [], k => [(k, 1)]
  | (a, c) :: t, k =>
    if k = a then (a, c + 1) :: t
    else if idLt k a then (k, 1) :: (a, c) :: t
    else (a, c) :: bumpKey t k

/-- `dependent_map.entry(key).or_insert(0)` on the ordered map. -/
def ensureKey : List (DepId × Nat) → DepId → List (DepId × Nat)
  | [], k => [(k, 0)]
  | (a, c) :: t, k =>
    if k = a then (a, c) :: t
    else if idLt k a then (k, 0) :: (a, c) :: t
    else (a, c) :: ensureKey t k

/-- `DepTree::calculate_dependents`: bump every dependency occurrence, then
make sure every key is present; `into_iter` returns the ordered entries. -/
def DepTree.calculate_dependents (t : DepTree) : List (DepId × Nat) :=
  t.inner.foldl (fun acc e => ensureKey (e.2.foldl bumpKey acc) e.1) []

/-- `DepTree::most_dependents`. -/
def DepTree.most_dependents (t : DepTree) : List (DepId × Nat) :=
  sortDesc t.calculate_dependents

/-- `DepTree::least_dependents`. -/
def DepTree.least_dependents (t : DepTree) : List (DepId × Nat) :=
  sortAsc t.calculate_dependents

/-- The declared-edge relation of an edge map: `b` occurs in the dependency
list `BTreeMap::get` yields for `a`. -/
def edgeStep (m : EdgeMap) (a b : DepId) : Prop :=
  ∃ ds, mapGet m a = some ds ∧ b ∈ ds

/-- The `visited` list accumulated by the cycle search is a reverse
topological order: each element's dependencies occur strictly earlier. -/
def TopoFrom (m : EdgeMap) : List DepId → List DepId → Prop
  | _, [] => True
  | pre, v :: rest => (∀ d ∈ depsL m v, d ∈ pre) ∧ TopoFrom m (pre ++ [v]) rest

/-- `TopoFrom` starting from the empty accumulator. -/
def TopoList (m : EdgeMap) (l : List DepId) : Prop := TopoFrom m [] l

/-! ### Basic facts about the order and the map -/

theorem idLt_iff {a b : DepId} :
    idLt a b = true ↔ a.1 < b.1 ∨ (a.1 = b.1 ∧ a.2 < b.2) := by
  simp [idLt]

theorem idLt_irrefl (a : DepId) : idLt a a = false := by
  simp [idLt]

theorem idLt_ne {a b : DepId} (h : idLt a b = true) : a ≠ b := by
  intro e
  subst e
  rw [idLt_irrefl] at h
  cases h

theorem idLt_trans {a b c : DepId} (h1 : idLt a b = true)
    (h2 : idLt b c = true) : idLt a c = true := by
  rw [idLt_iff] at *
  omega

theorem idLt_total {a b : DepId} (h : a ≠ b) :
    idLt a b = true ∨ idLt b a = true := by
  have hab : ¬ (a.1 = b.1 ∧ a.2 = b.2) := by
    intro he
    exact h (Prod.ext he.1 he.2)
  rw [idLt_iff, idLt_iff]
  omega

theorem mapGet_some_mem {m : EdgeMap} {k : DepId} {ds : List DepId}
    (h : mapGet m k = some ds) : (k, ds) ∈ m := by
  unfold mapGet at h
  rcases hf : m.find? (fun e => e.1 == k) with _ | e
  · rw [hf] at h; cases h
  · rw [hf] at h
    have hmem := List.mem_of_find?_eq_some hf
    have hp := List.find?_some hf
    simp at hp h
    have : e = (k, ds) := by
      cases e
      simp_all
    rw [this] at hmem
    exact hmem

theorem mapGet_some_mem_keys {m : EdgeMap} {k : DepId} {ds : List DepId}
    (h : mapGet m k = some ds) : k ∈ keysOf m := by
  have := mapGet_some_mem h
  unfold keysOf
  exact List.mem_map_of_mem _ this

theorem mapGet_eq_none {m : EdgeMap} {k : DepId} (h : k ∉ keysOf m) :
    mapGet m k = none := by
  unfold mapGet
  have hn : m.find? (fun e => e.1 == k) = none := by
    rw [List.find?_eq_none]
    intro e he
    simp only [beq_iff_eq]
    intro hek
    refine h ?_
    unfold keysOf
    rw [← hek]
    exact List.mem_map_of_mem _ he
  rw [hn]
  rfl

theorem mem_keys_allIds {m : EdgeMap} {k : DepId} (h : k ∈ keysOf m) :
    k ∈ allIds m := by
  unfold allIds
  exact List.mem_append_left _ h

theorem mapGet_deps_len {m : EdgeMap} {k : DepId} {ds : List DepId}
    (h : mapGet m k = some ds) : ds.length ≤ (allIds m).length := by
  have hm : ds ∈ m.map (fun e => e.2) :=
    List.mem_map_of_mem _ (mapGet_some_mem h)
  have h1 : ds.length ≤ ((m.map (fun e => e.2)).flatten).length := by
    rw [List.length_flatten]
    refine List.single_le_sum (fun x _ => Nat.zero_le x) _ ?_
    exact List.mem_map_of_mem _ hm
  have h2 : (allIds m).length =
      (keysOf m).length + ((m.map (fun e => e.2)).flatten).length := by
    simp [allIds]
  omega

theorem length_filter_mono {α : Type} {p q : α → Bool} (l : List α)
    (h : ∀ x, p x = true → q x = true) :
    (l.filter p).length ≤ (l.filter q).length := by
  induction l with
  | nil => simp
  | cons a t ih =>
    by_cases hp : p a = true
    · rw [List.filter_cons_of_pos hp, List.filter_cons_of_pos (h a hp)]
      simpa using ih
    · rw [List.filter_cons_of_neg (by simpa using hp)]
      by_cases hq : q a = true
      · rw [List.filter_cons_of_pos hq]
        simp
        omega
      · rw [List.filter_cons_of_neg (by simpa using hq)]
        exact ih

theorem length_filter_strict {α : Type} {p q : α → Bool} {l : List α} {a : α}
    (h : ∀ x, p x = true → q x = true) (ha : a ∈ l) (hq : q a = true)
    (hp : p a = false) : (l.filter p).length < (l.filter q).length := by
  induction l with
  | nil => cases ha
  | cons b t ih =>
    rcases List.mem_cons.mp ha with rfl | hat
    · rw [List.filter_cons_of_neg (by simp [hp]), List.filter_cons_of_pos hq]
      simpa using Nat.lt_succ_of_le (length_filter_mono t h)
    · by_cases hpb : p b = true
      · rw [List.filter_cons_of_pos hpb, List.filter_cons_of_pos (h b hpb)]
        simpa using ih hat
      · rw [List.filter_cons_of_neg (by simpa using hpb)]
        by_cases hqb : q b = true
        · rw [List.filter_cons_of_pos hqb]
          exact Nat.lt_succ_of_lt (ih hat)
        · rw [List.filter_cons_of_neg (by simpa using hqb)]
          exact ih hat

/-! ### Shape of the circular-dependency search

`hcdOpt`/`hcdList` only ever append to `visited`, restore the stack exactly
when they report "no cycle", and in that case have visited the unit (resp.
every unit of the processed list). -/

theorem hcd_shape (f : Nat) (tree : EdgeMap) :
    (∀ unit vis stk b v s, hcdOpt f tree unit vis stk = some (b, v, s) →
      vis ⊆ v ∧ (b = false → s = stk ∧ unit ∈ v)) ∧
    (∀ ds vis stk b v s, hcdList f tree ds vis stk = some (b, v, s) →
      vis ⊆ v ∧ (b = false → s = stk ∧ ∀ d ∈ ds, d ∈ v)) := by
  induction f with
  | zero =>
    constructor
    · intro unit vis stk b v s h
      simp [hcdOpt] at h
    · intro ds vis stk b v s h
      cases ds with
      | nil =>
        simp [hcdList] at h
        obtain ⟨rfl, rfl, rfl⟩ := h
        exact ⟨fun x hx => hx, fun _ => ⟨rfl, by simp⟩⟩
      | cons d rest => simp [hcdList] at h
  | succ f ih =>
    constructor
    · intro unit vis stk b v s h
      rw [hcdOpt] at h
      split_ifs at h with h1 h2
      · simp at h
        obtain ⟨rfl, rfl, rfl⟩ := h
        exact ⟨fun x hx => hx, fun _ => ⟨rfl, h1⟩⟩
      · simp at h
        obtain ⟨rfl, rfl, rfl⟩ := h
        exact ⟨fun x hx => hx, fun hc => by cases hc⟩
      · rcases hres : hcdList f tree (depsL tree unit) vis (stk ++ [unit]) with
          _ | ⟨b1, v1, s1⟩
        · rw [hres] at h; cases h
        · rw [hres] at h
          obtain ⟨hsub, hfalse⟩ := (ih.2) _ _ _ _ _ _ hres
          cases b1
          · simp at h
            obtain ⟨rfl, rfl, rfl⟩ := h
            refine ⟨fun x hx => List.mem_append_left _ (hsub hx), fun _ => ?_⟩
            obtain ⟨hs1, _⟩ := hfalse rfl
            subst hs1
            exact ⟨List.dropLast_concat, by simp⟩
          · simp at h
            obtain ⟨rfl, rfl, rfl⟩ := h
            exact ⟨hsub, fun hc => by cases hc⟩
    · intro ds vis stk b v s h
      cases ds with
      | nil =>
        simp [hcdList] at h
        obtain ⟨rfl, rfl, rfl⟩ := h
        exact ⟨fun x hx => hx, fun _ => ⟨rfl, by simp⟩⟩
      | cons d rest =>
        rw [hcdList] at h
        rcases hres : hcdOpt f tree d vis stk with _ | ⟨b1, v1, s1⟩
        · rw [hres] at h; cases h
        · rw [hres] at h
          obtain ⟨hsub1, hfalse1⟩ := (ih.1) _ _ _ _ _ _ hres
          cases b1
          · obtain ⟨hs1, hd1⟩ := hfalse1 rfl
            subst hs1
            obtain ⟨hsub2, hfalse2⟩ := (ih.2) _ _ _ _ _ _ h
            refine ⟨fun x hx => hsub2 (hsub1 hx), fun hb => ?_⟩
            obtain ⟨hs2, hmem2⟩ := hfalse2 hb
            refine ⟨hs2, fun x hx => ?_⟩
            rcases List.mem_cons.mp hx with rfl | hxr
            · exact hsub2 hd1
            · exact hmem2 _ hxr
          · simp at h
            obtain ⟨rfl, rfl, rfl⟩ := h
            exact ⟨hsub1, fun hc => by cases hc⟩

theorem hcdOpt_sub {f : Nat} {tree : EdgeMap} {unit : DepId}
    {vis stk : List DepId} {b : Bool} {v s : List DepId}
    (h : hcdOpt f tree unit vis stk = some (b, v, s)) : vis ⊆ v :=
  ((hcd_shape f tree).1 _ _ _ _ _ _ h).1

theorem hcdOpt_false {f : Nat} {tree : EdgeMap} {unit : DepId}
    {vis stk : List DepId} {v s : List DepId}
    (h : hcdOpt f tree unit vis stk = some (false, v, s)) :
    s = stk ∧ unit ∈ v :=
  ((hcd_shape f tree).1 _ _ _ _ _ _ h).2 rfl

theorem hcdList_false {f : Nat} {tree : EdgeMap} {ds : List DepId}
    {vis stk : List DepId} {v s : List DepId}
    (h : hcdList f tree ds vis stk = some (false, v, s)) :
    vis ⊆ v ∧ s = stk ∧ ∀ d ∈ ds, d ∈ v :=
  ⟨((hcd_shape f tree).2 _ _ _ _ _ _ h).1,
    ((hcd_shape f tree).2 _ _ _ _ _ _ h).2 rfl⟩

/-! ### The canonical fuel suffices -/

/-- Identifiers of the graph not yet on the list `l`. -/
def remIds (tree : EdgeMap) (l : List DepId) : Nat :=
  ((allIds tree).filter (fun x => decide (x ∉ l))).length

theorem remIds_le (tree : EdgeMap) (l : List DepId) :
    remIds tree l ≤ (allIds tree).length :=
  List.length_filter_le _ _

theorem remIds_nil (tree : EdgeMap) :
    remIds tree [] = (allIds tree).length := by
  unfold remIds
  rw [List.filter_eq_self.mpr]
  intro a _
  simp

theorem remIds_mono {tree : EdgeMap} {l l' : List DepId}
    (h : ∀ x, x ∈ l → x ∈ l') : remIds tree l' ≤ remIds tree l := by
  refine length_filter_mono _ ?_
  intro x hx
  simp only [decide_eq_true_eq] at hx ⊢
  exact fun hl => hx (h x hl)

theorem remIds_strict {tree : EdgeMap} {l l' : List DepId} {a : DepId}
    (hsub : ∀ x, x ∈ l → x ∈ l') (hal : a ∉ l) (hal' : a ∈ l')
    (ha : a ∈ allIds tree) : remIds tree l' < remIds tree l := by
  refine length_filter_strict ?_ ha ?_ ?_
  · intro x hx
    simp only [decide_eq_true_eq] at hx ⊢
    exact fun hl => hx (hsub x hl)
  · simp [hal]
  · simp [hal']

theorem hcd_suff (tree : EdgeMap) : ∀ f : Nat,
    (∀ unit vis stk,
      remIds tree stk * ((allIds tree).length + 1) + 1 ≤ f →
      hcdOpt f tree unit vis stk ≠ none) ∧
    (∀ ds vis stk, ds.length ≤ (allIds tree).length →
      remIds tree stk * ((allIds tree).length + 1) + ds.length + 1 ≤ f →
      hcdList f tree ds vis stk ≠ none) := by
  intro f
  induction f with
  | zero =>
    constructor
    · intro unit vis stk hf
      omega
    · intro ds vis stk _ hf
      omega
  | succ f ih =>
    constructor
    · intro unit vis stk hf
      rw [hcdOpt]
      split_ifs with h1 h2
      · simp
      · simp
      · rcases hd : mapGet tree unit with _ | ds
        · have : depsL tree unit = [] := by simp [depsL, hd]
          rw [this]
          simp [hcdList]
        · have hds : depsL tree unit = ds := by simp [depsL, hd]
          rw [hds]
          have hlen : ds.length ≤ (allIds tree).length := mapGet_deps_len hd
          have hstep : remIds tree (stk ++ [unit]) + 1 ≤ remIds tree stk := by
            refine remIds_strict (fun x hx => List.mem_append_left _ hx) h2
              (List.mem_append_right _ (by simp))
              (mem_keys_allIds (mapGet_some_mem_keys hd))
          have hcond : remIds tree (stk ++ [unit]) * ((allIds tree).length + 1)
              + ds.length + 1 ≤ f := by
            have hmul : (remIds tree (stk ++ [unit]) + 1) * ((allIds tree).length + 1)
                ≤ remIds tree stk * ((allIds tree).length + 1) :=
              Nat.mul_le_mul_right _ hstep
            have hexp : (remIds tree (stk ++ [unit]) + 1) * ((allIds tree).length + 1)
                = remIds tree (stk ++ [unit]) * ((allIds tree).length + 1)
                  + ((allIds tree).length + 1) := by ring
            omega
          have hne := (ih.2) ds vis (stk ++ [unit]) hlen hcond
          rcases hres : hcdList f tree ds vis (stk ++ [unit]) with _ | ⟨b1, v1, s1⟩
          · exact absurd hres hne
          · cases b1 <;> simp
    · intro ds vis stk hlen hf
      cases ds with
      | nil => simp [hcdList]
      | cons d rest =>
        rw [hcdList]
        simp only [List.length_cons] at hlen hf
        have hne1 := (ih.1) d vis stk (by omega)
        rcases hres : hcdOpt f tree d vis stk with _ | ⟨b1, v1, s1⟩
        · exact absurd hres hne1
        · cases b1
          · obtain ⟨hs1, _⟩ := hcdOpt_false hres
            have hne2 := (ih.2) rest v1 s1 (by omega)
              (by rw [hs1]; omega)
            rcases hres2 : hcdList f tree rest v1 s1 with _ | r2
            · exact absurd hres2 hne2
            · simp [hres2]
          · simp

theorem hcdOpt_isSome (tree : EdgeMap) (unit : DepId) (vis : List DepId) :
    hcdOpt (edgeFuel tree) tree unit vis [] ≠ none := by
  refine ((hcd_suff tree (edgeFuel tree)).1) unit vis [] ?_
  rw [remIds_nil, edgeFuel]

theorem collect_shape (f : Nat) (tree : EdgeMap) :
    (∀ id vis out v o, collectOpt f tree id vis out = some (v, o) →
      vis ⊆ v ∧ id ∈ v ∧ ∃ t, o = out ++ t) ∧
    (∀ ds vis out v o, collectList f tree ds vis out = some (v, o) →
      vis ⊆ v ∧ (∃ t, o = out ++ t) ∧ ∀ d ∈ ds, d ∈ v ∧ d ∈ o) := by
  induction f with
  | zero =>
    constructor
    · intro id vis out v o h
      simp [collectOpt] at h
    · intro ds vis out v o h
      cases ds with
      | nil =>
        simp [collectList] at h
        obtain ⟨rfl, rfl⟩ := h
        exact ⟨fun x hx => hx, ⟨[], by simp⟩, by simp⟩
      | cons d rest => simp [collectList] at h
  | succ f ih =>
    constructor
    · intro id vis out v o h
      rw [collectOpt] at h
      split_ifs at h with h1
      · simp at h
        obtain ⟨rfl, rfl⟩ := h
        exact ⟨fun x hx => hx, h1, ⟨[], by simp⟩⟩
      · rcases hd : mapGet tree id with _ | ds
        · rw [hd] at h
          simp at h
          obtain ⟨rfl, rfl⟩ := h
          exact ⟨fun x hx => List.mem_cons_of_mem _ hx, by simp, ⟨[], by simp⟩⟩
        · rw [hd] at h
          obtain ⟨hsub, hpre, _⟩ := (ih.2) _ _ _ _ _ h
          exact ⟨fun x hx => hsub (List.mem_cons_of_mem _ hx),
            hsub (List.mem_cons_self _ _), hpre⟩
    · intro ds vis out v o h
      cases ds with
      | nil =>
        simp [collectList] at h
        obtain ⟨rfl, rfl⟩ := h
        exact ⟨fun x hx => hx, ⟨[], by simp⟩, by simp⟩
      | cons d rest =>
        rw [collectList] at h
        rcases hres : collectOpt f tree d vis (out ++ [d]) with _ | ⟨v1, o1⟩
        · rw [hres] at h; cases h
        · rw [hres] at h
          obtain ⟨hsub1, hd1, t1, ht1⟩ := (ih.1) _ _ _ _ _ hres
          obtain ⟨hsub2, ⟨t2, ht2⟩, hrest⟩ := (ih.2) _ _ _ _ _ h
          have hdo : d ∈ o := by
            rw [ht2, ht1]
            simp
          refine ⟨fun x hx => hsub2 (hsub1 hx), ⟨[d] ++ t1 ++ t2, by
            rw [ht2, ht1]; simp⟩, fun x hx => ?_⟩
          rcases List.mem_cons.mp hx with rfl | hxr
          · exact ⟨hsub2 hd1, hdo⟩
          · exact hrest _ hxr

theorem count_shape (f : Nat) (tree : EdgeMap) :
    (∀ id vis c v, countOpt f tree id vis = some (c, v) → vis ⊆ v) ∧
    (∀ ds vis c v, countList f tree ds vis = some (c, v) → vis ⊆ v) := by
  induction f with
  | zero =>
    constructor
    · intro id vis c v h
      simp [countOpt] at h
    · intro ds vis c v h
      cases ds with
      | nil =>
        simp [countList] at h
        obtain ⟨rfl, rfl⟩ := h
        exact fun x hx => hx
      | cons d rest => simp [countList] at h
  | succ f ih =>
    constructor
    · intro id vis c v h
      rw [countOpt] at h
      split_ifs at h with h1
      · simp at h
        obtain ⟨rfl, rfl⟩ := h
        exact fun x hx => hx
      · rcases hd : mapGet tree id with _ | ds
        · rw [hd] at h
          simp at h
          obtain ⟨rfl, rfl⟩ := h
          exact fun x hx => List.mem_cons_of_mem _ hx
        · rw [hd] at h
          have hsub := (ih.2) _ _ _ _ h
          exact fun x hx => hsub (List.mem_cons_of_mem _ hx)
    · intro ds vis c v h
      cases ds with
      | nil =>
        simp [countList] at h
        obtain ⟨rfl, rfl⟩ := h
        exact fun x hx => hx
      | cons d rest =>
        rw [countList] at h
        rcases hres : countOpt f tree d vis with _ | ⟨c1, v1⟩
        · rw [hres] at h; cases h
        · rw [hres] at h
          simp only at h
          rcases hres2 : countList f tree rest v1 with _ | ⟨c2, v2⟩
          · rw [hres2] at h; cases h
          · rw [hres2] at h
            simp at h
            obtain ⟨rfl, rfl⟩ := h
            exact fun x hx => (ih.2) _ _ _ _ hres2 ((ih.1) _ _ _ _ hres hx)

theorem collect_suff (tree : EdgeMap) : ∀ f : Nat,
    (∀ id vis out,
      remIds tree vis * ((allIds tree).length + 1) + 1 ≤ f →
      collectOpt f tree id vis out ≠ none) ∧
    (∀ ds vis out, ds.length ≤ (allIds tree).length →
      remIds tree vis * ((allIds tree).length + 1) + ds.length + 1 ≤ f →
      collectList f tree ds vis out ≠ none) := by
  intro f
  induction f with
  | zero =>
    constructor
    · intro id vis out hf
      omega
    · intro ds vis out _ hf
      omega
  | succ f ih =>
    constructor
    · intro id vis out hf
      rw [collectOpt]
      split_ifs with h1
      · simp
      · rcases hd : mapGet tree id with _ | ds
        · simp
        · have hlen : ds.length ≤ (allIds tree).length := mapGet_deps_len hd
          have hstep : remIds tree (id :: vis) + 1 ≤ remIds tree vis := by
            refine remIds_strict (fun x hx => List.mem_cons_of_mem _ hx) h1
              (List.mem_cons_self _ _)
              (mem_keys_allIds (mapGet_some_mem_keys hd))
          have hcond : remIds tree (id :: vis) * ((allIds tree).length + 1)
              + ds.length + 1 ≤ f := by
            have hmul : (remIds tree (id :: vis) + 1) * ((allIds tree).length + 1)
                ≤ remIds tree vis * ((allIds tree).length + 1) :=
              Nat.mul_le_mul_right _ hstep
            have hexp : (remIds tree (id :: vis) + 1) * ((allIds tree).length + 1)
                = remIds tree (id :: vis) * ((allIds tree).length + 1)
                  + ((allIds tree).length + 1) := by ring
            omega
          have hne := (ih.2) ds (id :: vis) out hlen hcond
          rcases hres : collectList f tree ds (id :: vis) out with _ | r
          · exact absurd hres hne
          · simp [hres]
    · intro ds vis out hlen hf
      cases ds with
      | nil => simp [collectList]
      | cons d rest =>
        rw [collectList]
        simp only [List.length_cons] at hlen hf
        have hne1 := (ih.1) d vis (out ++ [d]) (by omega)
        rcases hres : collectOpt f tree d vis (out ++ [d]) with _ | ⟨v1, o1⟩
        · exact absurd hres hne1
        · obtain ⟨hsub1, _, _⟩ := (collect_shape f tree).1 _ _ _ _ _ hres
          have hmono : remIds tree v1 ≤ remIds tree vis :=
            remIds_mono (fun x hx => hsub1 hx)
          have hmul : remIds tree v1 * ((allIds tree).length + 1)
              ≤ remIds tree vis * ((allIds tree).length + 1) :=
            Nat.mul_le_mul_right _ hmono
          have hne2 := (ih.2) rest v1 o1 (by omega) (by omega)
          rcases hres2 : collectList f tree rest v1 o1 with _ | r2
          · exact absurd hres2 hne2
          · simp [hres2]

theorem count_suff (tree : EdgeMap) : ∀ f : Nat,
    (∀ id vis,
      remIds tree vis * ((allIds tree).length + 1) + 1 ≤ f →
      countOpt f tree id vis ≠ none) ∧
    (∀ ds vis, ds.length ≤ (allIds tree).length →
      remIds tree vis * ((allIds tree).length + 1) + ds.length + 1 ≤ f →
      countList f tree ds vis ≠ none) := by
  intro f
  induction f with
  | zero =>
    constructor
    · intro id vis hf
      omega
    · intro ds vis _ hf
      omega
  | succ f ih =>
    constructor
    · intro id vis hf
      rw [countOpt]
      split_ifs with h1
      · simp
      · rcases hd : mapGet tree id with _ | ds
        · simp
        · have hlen : ds.length ≤ (allIds tree).length := mapGet_deps_len hd
          have hstep : remIds tree (id :: vis) + 1 ≤ remIds tree vis := by
            refine remIds_strict (fun x hx => List.mem_cons_of_mem _ hx) h1
              (List.mem_cons_self _ _)
              (mem_keys_allIds (mapGet_some_mem_keys hd))
          have hcond : remIds tree (id :: vis) * ((allIds tree).length + 1)
              + ds.length + 1 ≤ f := by
            have hmul : (remIds tree (id :: vis) + 1) * ((allIds tree).length + 1)
                ≤ remIds tree vis * ((allIds tree).length + 1) :=
              Nat.mul_le_mul_right _ hstep
            have hexp : (remIds tree (id :: vis) + 1) * ((allIds tree).length + 1)
                = remIds tree (id :: vis) * ((allIds tree).length + 1)
                  + ((allIds tree).length + 1) := by ring
            omega
          have hne := (ih.2) ds (id :: vis) hlen hcond
          rcases hres : countList f tree ds (id :: vis) with _ | r
          · exact absurd hres hne
          · simp [hres]
    · intro ds vis hlen hf
      cases ds with
      | nil => simp [countList]
      | cons d rest =>
        rw [countList]
        simp only [List.length_cons] at hlen hf
        have hne1 := (ih.1) d vis (by omega)
        rcases hres : countOpt f tree d vis with _ | ⟨c1, v1⟩
        · exact absurd hres hne1
        · have hsub1 := (count_shape f tree).1 _ _ _ _ hres
          have hmono : remIds tree v1 ≤ remIds tree vis :=
            remIds_mono (fun x hx => hsub1 hx)
          have hmul : remIds tree v1 * ((allIds tree).length + 1)
              ≤ remIds tree vis * ((allIds tree).length + 1) :=
            Nat.mul_le_mul_right _ hmono
          have hne2 := (ih.2) rest v1 (by omega) (by omega)
          rcases hres2 : countList f tree rest v1 with _ | r2
          · exact absurd hres2 hne2
          · simp [hres2]

theorem collectOpt_isSome (tree : EdgeMap) (id : DepId) :
    collectOpt (edgeFuel tree) tree id [] [] ≠ none := by
  refine ((collect_suff tree (edgeFuel tree)).1) id [] [] ?_
  rw [remIds_nil, edgeFuel]

theorem countOpt_isSome (tree : EdgeMap) (id : DepId) :
    countOpt (edgeFuel tree) tree id [] ≠ none := by
  refine ((count_suff tree (edgeFuel tree)).1) id [] ?_
  rw [remIds_nil, edgeFuel]

theorem buildLoopOpt_ne_none (tree : EdgeMap) :
    ∀ entries vis, buildLoopOpt tree entries vis ≠ none := by
  intro entries
  induction entries with
  | nil =>
    intro vis
    simp [buildLoopOpt]
  | cons e rest ih =>
    intro vis
    obtain ⟨unit, deps⟩ := e
    rw [buildLoopOpt]
    split_ifs with h1
    · simp
    · rcases hres : hcdOpt (edgeFuel tree) tree unit vis [] with _ | ⟨b1, v1, s1⟩
      · exact absurd hres (hcdOpt_isSome tree unit vis)
      · cases b1
        · rcases hb : buildLoopOpt tree rest v1 with _ | r
          · exact absurd hb (ih v1)
          · simp [hb]
        · simp

theorem buildLoopOpt_ok (tree : EdgeMap) :
    ∀ entries vis r, buildLoopOpt tree entries vis = some (.ok r) →
      r = entries ∧ ∀ e ∈ entries, e.1 ∉ e.2 := by
  intro entries
  induction entries with
  | nil =>
    intro vis r h
    simp [buildLoopOpt] at h
    exact ⟨h, by simp⟩
  | cons e rest ih =>
    intro vis r h
    obtain ⟨unit, deps⟩ := e
    rw [buildLoopOpt] at h
    split_ifs at h with h1
    · simp at h
    · rcases hres : hcdOpt (edgeFuel tree) tree unit vis [] with _ | ⟨b1, v1, s1⟩
      · rw [hres] at h; cases h
      · rw [hres] at h
        cases b1
        · simp only at h
          rcases hb : buildLoopOpt tree rest v1 with _ | r2
          · rw [hb] at h; cases h
          · rw [hb] at h
            simp at h
            cases r2 with
            | error e2 => simp [Except.map] at h
            | ok l2 =>
              simp [Except.map] at h
              obtain ⟨hl2, hrest⟩ := ih v1 l2 hb
              constructor
              · rw [← h, hl2]
              · intro e he
                rcases List.mem_cons.mp he with rfl | her
                · exact h1
                · exact hrest e her
        · simp at h

/-! ### The visited order is topological; successful builds are acyclic -/

theorem TopoFrom_append_one {m : EdgeMap} {u : DepId} :
    ∀ (l pre : List DepId), TopoFrom m pre l →
      (∀ d ∈ depsL m u, d ∈ pre ++ l) → TopoFrom m pre (l ++ [u]) := by
  intro l
  induction l with
  | nil =>
    intro pre _ hd
    refine ⟨fun d hdd => ?_, trivial⟩
    have := hd d hdd
    simpa using this
  | cons v rest ih =>
    intro pre ht hd
    refine ⟨ht.1, ih (pre ++ [v]) ht.2 fun d hdd => ?_⟩
    have := hd d hdd
    simpa using this

theorem TopoFrom_backdeps {m : EdgeMap} {a : DepId} {l2 : List DepId} :
    ∀ (l1 pre : List DepId), TopoFrom m pre (l1 ++ a :: l2) →
      ∀ d ∈ depsL m a, d ∈ pre ++ l1 := by
  intro l1
  induction l1 with
  | nil =>
    intro pre ht d hd
    simpa using ht.1 d hd
  | cons x t ih =>
    intro pre ht d hd
    have := ih (pre ++ [x]) ht.2 d hd
    simpa using this

/-- Position of the first occurrence of `a` in `l` (instance-free variant of
`List.indexOf`, used only for ranking the visited list). -/
def posIn : List DepId → DepId → Nat
  | [], _ => 0
  | x :: t, a => if x = a then 0 else posIn t a + 1

theorem posIn_split {a : DepId} :
    ∀ (l1 l2 : List DepId), (l1 ++ a :: l2).Nodup →
      posIn (l1 ++ a :: l2) a = l1.length := by
  intro l1
  induction l1 with
  | nil =>
    intro l2 _
    simp [posIn]
  | cons x t ih =>
    intro l2 hn
    have hxa : x ≠ a := by
      intro he
      subst he
      have := (List.nodup_cons.mp hn).1
      simp at this
    rw [List.cons_append]
    rw [show posIn (x :: (t ++ a :: l2)) a = posIn (t ++ a :: l2) a + 1 from by
      simp [posIn, hxa]]
    rw [ih l2 (List.nodup_cons.mp hn).2]
    simp

theorem posIn_mem_left {b : DepId} :
    ∀ (l1 rest : List DepId), b ∈ l1 → posIn (l1 ++ rest) b < l1.length := by
  intro l1
  induction l1 with
  | nil => intro rest h; cases h
  | cons x t ih =>
    intro rest hb
    by_cases hxb : x = b
    · simp [posIn, hxb]
    · rcases List.mem_cons.mp hb with rfl | hbt
      · exact absurd rfl hxb
      · rw [List.cons_append]
        rw [show posIn (x :: (t ++ rest)) b = posIn (t ++ rest) b + 1 from by
          simp [posIn, hxb]]
        have := ih rest hbt
        simp
        omega

theorem topo_step {m : EdgeMap} {V : List DepId} {a b : DepId}
    (ht : TopoList m V) (hn : V.Nodup) (ha : a ∈ V)
    (hstep : edgeStep m a b) :
    b ∈ V ∧ posIn V b < posIn V a := by
  obtain ⟨l1, l2, hV⟩ := List.append_of_mem ha
  obtain ⟨ds, hds, hbds⟩ := hstep
  have hdl : depsL m a = ds := by simp [depsL, hds]
  subst hV
  have hb1 : b ∈ l1 := by
    have := TopoFrom_backdeps l1 [] ht b (by rw [hdl]; exact hbds)
    simpa using this
  refine ⟨List.mem_append_left _ hb1, ?_⟩
  rw [posIn_split l1 l2 hn]
  exact posIn_mem_left l1 _ hb1

theorem topo_reach {m : EdgeMap} {V : List DepId}
    (ht : TopoList m V) (hn : V.Nodup) {a b : DepId}
    (h : Relation.TransGen (edgeStep m) a b) (ha : a ∈ V) :
    b ∈ V ∧ posIn V b < posIn V a := by
  induction h with
  | single hs => exact topo_step ht hn ha hs
  | tail _ hs ih =>
    obtain ⟨hbV, hlt⟩ := ih
    obtain ⟨hcV, hlt2⟩ := topo_step ht hn hbV hs
    exact ⟨hcV, lt_trans hlt2 hlt⟩

theorem topo_acyclic {m : EdgeMap} {V : List DepId}
    (ht : TopoList m V) (hn : V.Nodup)
    (hkeys : ∀ k ∈ keysOf m, k ∈ V) :
    ∀ u, ¬ Relation.TransGen (edgeStep m) u u := by
  intro u h
  have hu : u ∈ V := by
    obtain ⟨x, hux, _⟩ := (Relation.TransGen.head'_iff).mp h
    obtain ⟨ds, hds, _⟩ := hux
    exact hkeys u (mapGet_some_mem_keys hds)
  exact absurd (topo_reach ht hn h hu).2 (lt_irrefl _)

theorem hcd_inv (f : Nat) (tree : EdgeMap) :
    (∀ unit vis stk v s, hcdOpt f tree unit vis stk = some (false, v, s) →
      vis.Nodup → (∀ x ∈ vis, x ∉ stk) →
      v.Nodup ∧ (∀ x ∈ v, x ∉ stk) ∧ (TopoList tree vis → TopoList tree v)) ∧
    (∀ ds vis stk v s, hcdList f tree ds vis stk = some (false, v, s) →
      vis.Nodup → (∀ x ∈ vis, x ∉ stk) →
      v.Nodup ∧ (∀ x ∈ v, x ∉ stk) ∧ (TopoList tree vis → TopoList tree v)) := by
  induction f with
  | zero =>
    constructor
    · intro unit vis stk v s h
      simp [hcdOpt] at h
    · intro ds vis stk v s h hnd hdisj
      cases ds with
      | nil =>
        simp [hcdList] at h
        obtain ⟨rfl, rfl⟩ := h
        exact ⟨hnd, hdisj, fun t => t⟩
      | cons d rest => simp [hcdList] at h
  | succ f ih =>
    constructor
    · intro unit vis stk v s h hnd hdisj
      rw [hcdOpt] at h
      split_ifs at h with h1 h2
      · simp at h
        obtain ⟨rfl, rfl⟩ := h
        exact ⟨hnd, hdisj, fun t => t⟩
      · simp at h
      · rcases hres : hcdList f tree (depsL tree unit) vis (stk ++ [unit]) with
          _ | ⟨b1, v1, s1⟩
        · rw [hres] at h; cases h
        · rw [hres] at h
          cases b1
          · simp at h
            obtain ⟨rfl, rfl⟩ := h
            obtain ⟨hsub1, hs1, hdeps⟩ := hcdList_false hres
            obtain ⟨hnd1, hdisj1, htopo1⟩ := (ih.2) _ _ _ _ _ hres hnd
              (fun x hx => by
                simp only [List.mem_append, List.mem_singleton]
                push_neg
                exact ⟨hdisj x hx, fun he => h1 (he ▸ hx)⟩)
            have hunotv1 : unit ∉ v1 := fun hu =>
              absurd (List.mem_append_right _ (by simp)) (hdisj1 unit hu)
            refine ⟨?_, ?_, ?_⟩
            · rw [List.nodup_append]
              exact ⟨hnd1, List.nodup_singleton _, fun x hx hxu => by
                simp at hxu
                exact absurd (hxu ▸ hx) hunotv1⟩
            · intro x hx
              rcases List.mem_append.mp hx with hxv | hxu
              · exact fun hs => (hdisj1 x hxv) (List.mem_append_left _ hs)
              · simp at hxu
                exact hxu ▸ h2
            · intro ht
              refine TopoFrom_append_one v1 [] (htopo1 ht) fun d hd => ?_
              simp only [List.nil_append]
              exact hdeps d hd
          · simp at h
    · intro ds vis stk v s h hnd hdisj
      cases ds with
      | nil =>
        simp [hcdList] at h
        obtain ⟨rfl, rfl⟩ := h
        exact ⟨hnd, hdisj, fun t => t⟩
      | cons d rest =>
        rw [hcdList] at h
        rcases hres : hcdOpt f tree d vis stk with _ | ⟨b1, v1, s1⟩
        · rw [hres] at h; cases h
        · rw [hres] at h
          cases b1
          · simp only at h
            obtain ⟨hs1, _⟩ := hcdOpt_false hres
            obtain ⟨hnd1, hdisj1, htopo1⟩ := (ih.1) _ _ _ _ _ hres hnd hdisj
            rw [hs1] at h
            obtain ⟨hnd2, hdisj2, htopo2⟩ := (ih.2) _ _ _ _ _ h hnd1 hdisj1
            exact ⟨hnd2, hdisj2, fun t => htopo2 (htopo1 t)⟩
          · simp at h

theorem buildLoopOpt_visited (tree : EdgeMap) :
    ∀ entries vis r, buildLoopOpt tree entries vis = some (.ok r) →
      vis.Nodup → TopoList tree vis →
      ∃ V, vis ⊆ V ∧ V.Nodup ∧ TopoList tree V ∧ ∀ e ∈ entries, e.1 ∈ V := by
  intro entries
  induction entries with
  | nil =>
    intro vis r h hnd ht
    exact ⟨vis, fun x hx => hx, hnd, ht, by simp⟩
  | cons e rest ih =>
    intro vis r h hnd ht
    obtain ⟨unit, deps⟩ := e
    rw [buildLoopOpt] at h
    split_ifs at h with h1
    · simp at h
    · rcases hres : hcdOpt (edgeFuel tree) tree unit vis [] with _ | ⟨b1, v1, s1⟩
      · rw [hres] at h; cases h
      · rw [hres] at h
        cases b1
        · simp only at h
          rcases hb : buildLoopOpt tree rest v1 with _ | r2
          · rw [hb] at h; cases h
          · rw [hb] at h
            simp at h
            cases r2 with
            | error e2 => simp [Except.map] at h
            | ok l2 =>
              obtain ⟨_, hunit⟩ := hcdOpt_false hres
              obtain ⟨hnd1, _, htopo1⟩ := (hcd_inv (edgeFuel tree) tree).1
                _ _ _ _ _ hres hnd (by simp)
              obtain ⟨V, hsubV1, hVnd, hVtopo, hVmem⟩ :=
                ih v1 l2 hb hnd1 (htopo1 ht)
              refine ⟨V, fun x hx => hsubV1 (hcdOpt_sub hres hx), hVnd, hVtopo,
                fun e he => ?_⟩
              rcases List.mem_cons.mp he with rfl | her
              · exact hsubV1 hunit
              · exact hVmem e her
        · simp at h

theorem build_loop_some (b : DepTreeBuilder) :
    ∃ r, buildLoopOpt b.inner b.inner [] = some r ∧
      b.build = r.map DepTree.new := by
  rcases hr : buildLoopOpt b.inner b.inner [] with _ | r
  · exact absurd hr (buildLoopOpt_ne_none _ _ _)
  · exact ⟨r, rfl, by simp [DepTreeBuilder.build, hr]⟩

theorem build_ok_loop {b : DepTreeBuilder} {t : DepTree} (h : b.build = .ok t) :
    buildLoopOpt b.inner b.inner [] = some (.ok t.inner) ∧ t.inner = b.inner := by
  obtain ⟨r, hr, hb⟩ := build_loop_some b
  rw [h] at hb
  cases r with
  | error e => simp [Except.map] at hb
  | ok l =>
    simp [Except.map, DepTree.new] at hb
    have hinner : t.inner = l := by rw [hb]
    have hl := buildLoopOpt_ok b.inner b.inner [] l hr
    exact ⟨by rw [hinner]; exact hr, by rw [hinner, hl.1]⟩

/-- Core validity of a successful build: the finalized map has no
self-dependency entry and no cycle along `edgeStep`. -/
theorem build_ok_valid {b : DepTreeBuilder} {t : DepTree}
    (h : b.build = .ok t) :
    (∀ e ∈ t.inner, e.1 ∉ e.2) ∧
      ∀ u, ¬ Relation.TransGen (edgeStep t.inner) u u := by
  obtain ⟨hloop, hinner⟩ := build_ok_loop h
  have hok := buildLoopOpt_ok b.inner b.inner [] t.inner hloop
  refine ⟨by rw [hok.1]; exact hok.2, ?_⟩
  obtain ⟨V, _, hVnd, hVtopo, hVmem⟩ :=
    buildLoopOpt_visited b.inner b.inner [] t.inner hloop
      (List.nodup_nil) (by trivial)
  have hkeys : ∀ k ∈ keysOf b.inner, k ∈ V := by
    intro k hk
    unfold keysOf at hk
    obtain ⟨e, he, hek⟩ := List.mem_map.mp hk
    exact hek ▸ hVmem e he
  intro u
  rw [hinner]
  exact topo_acyclic hVtopo hVnd hkeys u

/-! ### Soundness and completeness of `collect_dependencies` -/

theorem collect_sound (f : Nat) (m : EdgeMap) :
    (∀ id vis out v o, collectOpt f m id vis out = some (v, o) →
      ∀ x ∈ o, x ∈ out ∨ Relation.TransGen (edgeStep m) id x) ∧
    (∀ ds vis out v o, collectList f m ds vis out = some (v, o) →
      ∀ x ∈ o, x ∈ out ∨ ∃ d ∈ ds, x = d ∨ Relation.TransGen (edgeStep m) d x) := by
  induction f with
  | zero =>
    constructor
    · intro id vis out v o h
      simp [collectOpt] at h
    · intro ds vis out v o h x hx
      cases ds with
      | nil =>
        simp [collectList] at h
        obtain ⟨rfl, rfl⟩ := h
        exact Or.inl hx
      | cons d rest => simp [collectList] at h
  | succ f ih =>
    constructor
    · intro id vis out v o h x hx
      rw [collectOpt] at h
      split_ifs at h with h1
      · simp at h
        obtain ⟨rfl, rfl⟩ := h
        exact Or.inl hx
      · rcases hd : mapGet m id with _ | ds
        · rw [hd] at h
          simp at h
          obtain ⟨rfl, rfl⟩ := h
          exact Or.inl hx
        · rw [hd] at h
          rcases (ih.2) _ _ _ _ _ h x hx with hout | ⟨d, hdds, hcase⟩
          · exact Or.inl hout
          · refine Or.inr ?_
            have hstep : edgeStep m id d := ⟨ds, hd, hdds⟩
            rcases hcase with rfl | htg
            · exact Relation.TransGen.single hstep
            · exact Relation.TransGen.head hstep htg
    · intro ds vis out v o h x hx
      cases ds with
      | nil =>
        simp [collectList] at h
        obtain ⟨rfl, rfl⟩ := h
        exact Or.inl hx
      | cons d rest =>
        rw [collectList] at h
        rcases hres : collectOpt f m d vis (out ++ [d]) with _ | ⟨v1, o1⟩
        · rw [hres] at h; cases h
        · rw [hres] at h
          rcases (ih.2) _ _ _ _ _ h x hx with ho1 | ⟨d2, hd2, hcase⟩
          · rcases (ih.1) _ _ _ _ _ hres x ho1 with hout | htg
            · rcases List.mem_append.mp hout with ho | hd
              · exact Or.inl ho
              · simp at hd
                exact Or.inr ⟨d, by simp, Or.inl hd⟩
            · exact Or.inr ⟨d, by simp, Or.inr htg⟩
          · exact Or.inr ⟨d2, List.mem_cons_of_mem _ hd2, hcase⟩

theorem collect_complete (f : Nat) (m : EdgeMap) :
    (∀ id vis out v o, collectOpt f m id vis out = some (v, o) →
      ∀ w ∈ v, w ∈ vis ∨ ∀ d ∈ depsL m w, d ∈ v ∧ d ∈ o) ∧
    (∀ ds vis out v o, collectList f m ds vis out = some (v, o) →
      ∀ w ∈ v, w ∈ vis ∨ ∀ d ∈ depsL m w, d ∈ v ∧ d ∈ o) := by
  induction f with
  | zero =>
    constructor
    · intro id vis out v o h
      simp [collectOpt] at h
    · intro ds vis out v o h w hw
      cases ds with
      | nil =>
        simp [collectList] at h
        obtain ⟨rfl, rfl⟩ := h
        exact Or.inl hw
      | cons d rest => simp [collectList] at h
  | succ f ih =>
    constructor
    · intro id vis out v o h w hw
      rw [collectOpt] at h
      split_ifs at h with h1
      · simp at h
        obtain ⟨rfl, rfl⟩ := h
        exact Or.inl hw
      · rcases hd : mapGet m id with _ | ds
        · rw [hd] at h
          simp at h
          obtain ⟨rfl, rfl⟩ := h
          rcases List.mem_cons.mp hw with rfl | hwv
          · exact Or.inr (by simp [depsL, hd])
          · exact Or.inl hwv
        · rw [hd] at h
          rcases (ih.2) _ _ _ _ _ h w hw with hwv | hexp
          · rcases List.mem_cons.mp hwv with rfl | hwvis
            · refine Or.inr ?_
              have hds : depsL m w = ds := by simp [depsL, hd]
              rw [hds]
              exact fun d hdd => ((collect_shape f m).2 _ _ _ _ _ h).2.2 d hdd
            · exact Or.inl hwvis
          · exact Or.inr hexp
    · intro ds vis out v o h w hw
      cases ds with
      | nil =>
        simp [collectList] at h
        obtain ⟨rfl, rfl⟩ := h
        exact Or.inl hw
      | cons d rest =>
        rw [collectList] at h
        rcases hres : collectOpt f m d vis (out ++ [d]) with _ | ⟨v1, o1⟩
        · rw [hres] at h; cases h
        · rw [hres] at h
          obtain ⟨hsub2, ⟨t2, ht2⟩, _⟩ := (collect_shape f m).2 _ _ _ _ _ h
          rcases (ih.2) _ _ _ _ _ h w hw with hwv1 | hexp
          · rcases (ih.1) _ _ _ _ _ hres w hwv1 with hwvis | hexp1
            · exact Or.inl hwvis
            · refine Or.inr fun d2 hd2 => ?_
              obtain ⟨hdv1, hdo1⟩ := hexp1 d2 hd2
              exact ⟨hsub2 hdv1, by rw [ht2]; exact List.mem_append_left _ hdo1⟩
          · exact Or.inr hexp

/-- Set-level specification of `dependencies_of`: membership in the result is
exactly transitive reachability along declared edges.  This holds for every
wrapped map, validated or not. -/
theorem dependencies_of_iff (m : EdgeMap) (u x : DepId) :
    x ∈ (DepTree.new m).dependencies_of u ↔
      Relation.TransGen (edgeStep m) u x := by
  unfold DepTree.dependencies_of
  rcases hres : collectOpt (edgeFuel m) m u [] [] with _ | ⟨v, o⟩
  · exact absurd hres (collectOpt_isSome m u)
  · simp only [DepTree.new, hres, Option.getD_some]
    constructor
    · intro hx
      rcases (collect_sound (edgeFuel m) m).1 _ _ _ _ _ hres x hx with hnil | htg
      · cases hnil
      · exact htg
    · intro htg
      obtain ⟨_, huv, _⟩ := (collect_shape (edgeFuel m) m).1 _ _ _ _ _ hres
      have hclosed : ∀ w ∈ v, ∀ d ∈ depsL m w, d ∈ v ∧ d ∈ o := by
        intro w hw
        rcases (collect_complete (edgeFuel m) m).1 _ _ _ _ _ hres w hw with hvac | hexp
        · cases hvac
        · exact hexp
      have hmain : ∀ y, Relation.TransGen (edgeStep m) u y → y ∈ v ∧ y ∈ o := by
        intro y hy
        induction hy with
        | single hs =>
          obtain ⟨ds, hds, hyds⟩ := hs
          have : depsL m u = ds := by simp [depsL, hds]
          exact hclosed u huv _ (by rw [this]; exact hyds)
        | tail _ hs ih2 =>
          obtain ⟨ds, hds, hyds⟩ := hs
          rename_i y' _ _
          have hd : depsL m y' = ds := by simp [depsL, hds]
          exact hclosed y' ih2.1 _ (by rw [hd]; exact hyds)
      exact (hmain x htg).2

/-! ### The dependent-count map -/

/-- Lookup in the ordered `(unit, count)` list. -/
def lookupC (l : List (DepId × Nat)) (k : DepId) : Option Nat :=
  (l.find? (fun e => e.1 == k)).map (fun e => e.2)

/-- Lookup with default `0`. -/
def valC (l : List (DepId × Nat)) (k : DepId) : Nat := (lookupC l k).getD 0

/-- Ordered-map invariant for `(unit, count)` lists. -/
def SortedPairs (l : List (DepId × Nat)) : Prop :=
  l.Pairwise (fun e f => idLt e.1 f.1 = true)

/-- Total number of occurrences of `u` in all dependency lists of `m`. -/
def occTotal (m : EdgeMap) (u : DepId) : Nat :=
  (m.map (fun e => e.2.count u)).sum


theorem mem_keys_bumpKey {x k : DepId} :
    ∀ l : List (DepId × Nat),
      (x ∈ (bumpKey l k).map (fun e => e.1) ↔
        x = k ∨ x ∈ l.map (fun e => e.1)) := by
  intro l
  induction l with
  | nil => simp [bumpKey]
  | cons e t ih =>
    obtain ⟨a, c⟩ := e
    rw [bumpKey]
    split_ifs with h1 h2
    · subst h1
      simp
    · simp
    · simp only [List.map_cons, List.mem_cons, ih]
      tauto

theorem mem_keys_ensureKey {x k : DepId} :
    ∀ l : List (DepId × Nat),
      (x ∈ (ensureKey l k).map (fun e => e.1) ↔
        x = k ∨ x ∈ l.map (fun e => e.1)) := by
  intro l
  induction l with
  | nil => simp [ensureKey]
  | cons e t ih =>
    obtain ⟨a, c⟩ := e
    rw [ensureKey]
    split_ifs with h1 h2
    · subst h1
      simp
    · simp
    · simp only [List.map_cons, List.mem_cons, ih]
      tauto

theorem bumpKey_sorted {k : DepId} :
    ∀ l : List (DepId × Nat), SortedPairs l → SortedPairs (bumpKey l k) := by
  intro l
  induction l with
  | nil =>
    intro _
    simp [bumpKey, SortedPairs]
  | cons e t ih =>
    intro hs
    obtain ⟨a, c⟩ := e
    obtain ⟨hhead, htail⟩ := List.pairwise_cons.mp hs
    rw [bumpKey]
    split_ifs with h1 h2
    · subst h1
      exact List.pairwise_cons.mpr ⟨hhead, htail⟩
    · refine List.pairwise_cons.mpr ⟨?_, List.pairwise_cons.mpr ⟨hhead, htail⟩⟩
      intro f hf
      rcases List.mem_cons.mp hf with rfl | hft
      · exact h2
      · exact idLt_trans h2 (hhead f hft)
    · have hak : idLt a k = true := by
        have hne : a ≠ k := fun he => h1 he.symm
        rcases idLt_total hne with h | h
        · exact h
        · exact absurd h h2
      refine List.pairwise_cons.mpr ⟨?_, ih htail⟩
      intro f hf
      have hfk := (mem_keys_bumpKey t).mp (List.mem_map_of_mem (fun e => e.1) hf)
      rcases hfk with hfk | hft
      · rw [hfk]
        exact hak
      · obtain ⟨g, hg, hgf⟩ := List.mem_map.mp hft
        rw [← hgf]
        exact hhead g hg

theorem ensureKey_sorted {k : DepId} :
    ∀ l : List (DepId × Nat), SortedPairs l → SortedPairs (ensureKey l k) := by
  intro l
  induction l with
  | nil =>
    intro _
    simp [ensureKey, SortedPairs]
  | cons e t ih =>
    intro hs
    obtain ⟨a, c⟩ := e
    obtain ⟨hhead, htail⟩ := List.pairwise_cons.mp hs
    rw [ensureKey]
    split_ifs with h1 h2
    · exact hs
    · refine List.pairwise_cons.mpr ⟨?_, List.pairwise_cons.mpr ⟨hhead, htail⟩⟩
      intro f hf
      rcases List.mem_cons.mp hf with rfl | hft
      · exact h2
      · exact idLt_trans h2 (hhead f hft)
    · have hak : idLt a k = true := by
        have hne : a ≠ k := fun he => h1 he.symm
        rcases idLt_total hne with h | h
        · exact h
        · exact absurd h h2
      refine List.pairwise_cons.mpr ⟨?_, ih htail⟩
      intro f hf
      have hfk := (mem_keys_ensureKey t).mp (List.mem_map_of_mem (fun e => e.1) hf)
      rcases hfk with hfk | hft
      · rw [hfk]
        exact hak
      · obtain ⟨g, hg, hgf⟩ := List.mem_map.mp hft
        rw [← hgf]
        exact hhead g hg

theorem lookupC_none {k : DepId} {l : List (DepId × Nat)}
    (h : ∀ e ∈ l, e.1 ≠ k) : lookupC l k = none := by
  unfold lookupC
  rw [List.find?_eq_none.mpr]
  · rfl
  · intro e he
    simp only [beq_iff_eq]
    exact h e he

theorem lookupC_below {k : DepId} {l : List (DepId × Nat)}
    (h : ∀ e ∈ l, idLt k e.1 = true) : lookupC l k = none :=
  lookupC_none fun e he hek => by
    have := h e he
    rw [hek] at this
    rw [idLt_irrefl] at this
    cases this


theorem lookupC_cons_self {a : DepId} {c : Nat} {t : List (DepId × Nat)} :
    lookupC ((a, c) :: t) a = some c := by
  simp [lookupC, List.find?]

theorem lookupC_cons_ne {a j : DepId} {c : Nat} {t : List (DepId × Nat)}
    (h : ¬ a = j) : lookupC ((a, c) :: t) j = lookupC t j := by
  have hb : (a == j) = false := by simp [h]
  simp [lookupC, List.find?, hb]

theorem bumpKey_val_self {k : DepId} :
    ∀ l : List (DepId × Nat), SortedPairs l →
      lookupC (bumpKey l k) k = some (valC l k + 1) := by
  intro l
  induction l with
  | nil =>
    intro _
    simp [bumpKey, lookupC, valC, List.find?]
  | cons e t ih =>
    intro hs
    obtain ⟨a, c⟩ := e
    obtain ⟨hhead, htail⟩ := List.pairwise_cons.mp hs
    rw [bumpKey]
    split_ifs with h1 h2
    · subst h1
      rw [lookupC_cons_self, valC, lookupC_cons_self]
      simp
    · have hnone : lookupC ((a, c) :: t) k = none := by
        refine lookupC_below ?_
        intro e he
        rcases List.mem_cons.mp he with rfl | het
        · exact h2
        · exact idLt_trans h2 (hhead e het)
      rw [lookupC_cons_self, valC, hnone]
      simp
    · have hne : ¬ a = k := fun he => h1 he.symm
      have hv : valC ((a, c) :: t) k = valC t k := by
        rw [valC, lookupC_cons_ne hne, valC]
      rw [lookupC_cons_ne hne, ih htail, hv]

theorem bumpKey_val_other {k j : DepId} (hjk : j ≠ k) :
    ∀ l : List (DepId × Nat), lookupC (bumpKey l k) j = lookupC l j := by
  intro l
  induction l with
  | nil =>
    rw [bumpKey, lookupC_cons_ne (fun h => hjk h.symm)]
  | cons e t ih =>
    obtain ⟨a, c⟩ := e
    rw [bumpKey]
    split_ifs with h1 h2
    · subst h1
      rw [lookupC_cons_ne (fun h => hjk h.symm),
        lookupC_cons_ne (fun h => hjk h.symm)]
    · rw [lookupC_cons_ne (fun h => hjk h.symm)]
    · by_cases haj : a = j
      · subst haj
        rw [lookupC_cons_self, lookupC_cons_self]
      · rw [lookupC_cons_ne haj, ih, lookupC_cons_ne haj]

theorem ensureKey_val_self {k : DepId} :
    ∀ l : List (DepId × Nat), SortedPairs l →
      lookupC (ensureKey l k) k = some (valC l k) := by
  intro l
  induction l with
  | nil =>
    intro _
    simp [ensureKey, lookupC, valC, List.find?]
  | cons e t ih =>
    intro hs
    obtain ⟨a, c⟩ := e
    obtain ⟨hhead, htail⟩ := List.pairwise_cons.mp hs
    rw [ensureKey]
    split_ifs with h1 h2
    · subst h1
      rw [lookupC_cons_self, valC, lookupC_cons_self]
      simp
    · have hnone : lookupC ((a, c) :: t) k = none := by
        refine lookupC_below ?_
        intro e he
        rcases List.mem_cons.mp he with rfl | het
        · exact h2
        · exact idLt_trans h2 (hhead e het)
      rw [lookupC_cons_self, valC, hnone]
      simp
    · have hne : ¬ a = k := fun he => h1 he.symm
      have hv : valC ((a, c) :: t) k = valC t k := by
        rw [valC, lookupC_cons_ne hne, valC]
      rw [lookupC_cons_ne hne, ih htail, hv]

theorem ensureKey_val_other {k j : DepId} (hjk : j ≠ k) :
    ∀ l : List (DepId × Nat), lookupC (ensureKey l k) j = lookupC l j := by
  intro l
  induction l with
  | nil =>
    rw [ensureKey, lookupC_cons_ne (fun h => hjk h.symm)]
  | cons e t ih =>
    obtain ⟨a, c⟩ := e
    rw [ensureKey]
    split_ifs with h1 h2
    · rfl
    · rw [lookupC_cons_ne (fun h => hjk h.symm)]
    · by_cases haj : a = j
      · subst haj
        rw [lookupC_cons_self, lookupC_cons_self]
      · rw [lookupC_cons_ne haj, ih, lookupC_cons_ne haj]

theorem valC_ensureKey (l : List (DepId × Nat)) (k j : DepId)
    (hs : SortedPairs l) : valC (ensureKey l k) j = valC l j := by
  by_cases hjk : j = k
  · subst hjk
    rw [valC, ensureKey_val_self l hs]
    rfl
  · rw [valC, ensureKey_val_other hjk, ← valC]

theorem foldl_bump_sorted :
    ∀ (ds : List DepId) (acc : List (DepId × Nat)), SortedPairs acc →
      SortedPairs (ds.foldl bumpKey acc) := by
  intro ds
  induction ds with
  | nil => intro acc h; exact h
  | cons d rest ih =>
    intro acc h
    rw [List.foldl_cons]
    exact ih _ (bumpKey_sorted acc h)

theorem foldl_bump_val (u : DepId) :
    ∀ (ds : List DepId) (acc : List (DepId × Nat)), SortedPairs acc →
      valC (ds.foldl bumpKey acc) u = valC acc u + ds.count u := by
  intro ds
  induction ds with
  | nil =>
    intro acc _
    simp
  | cons d rest ih =>
    intro acc hs
    rw [List.foldl_cons, ih _ (bumpKey_sorted acc hs)]
    by_cases hdu : d = u
    · subst hdu
      have : valC (bumpKey acc d) d = valC acc d + 1 := by
        rw [valC, bumpKey_val_self acc hs]
        rfl
      rw [this, List.count_cons]
      simp
      omega
    · have : valC (bumpKey acc d) u = valC acc u := by
        rw [valC, bumpKey_val_other (fun h => hdu h.symm), ← valC]
      rw [this, List.count_cons]
      have hb : (d == u) = false := by simp [hdu]
      rw [hb]
      simp

theorem foldl_bump_keys {x : DepId} :
    ∀ (ds : List DepId) (acc : List (DepId × Nat)),
      (x ∈ (ds.foldl bumpKey acc).map (fun e => e.1) ↔
        x ∈ acc.map (fun e => e.1) ∨ x ∈ ds) := by
  intro ds
  induction ds with
  | nil => intro acc; simp
  | cons d rest ih =>
    intro acc
    rw [List.foldl_cons, ih, mem_keys_bumpKey]
    simp
    tauto

theorem calc_fold_sorted :
    ∀ (entries : EdgeMap) (acc : List (DepId × Nat)), SortedPairs acc →
      SortedPairs (entries.foldl
        (fun acc e => ensureKey (e.2.foldl bumpKey acc) e.1) acc) := by
  intro entries
  induction entries with
  | nil => intro acc h; exact h
  | cons e rest ih =>
    intro acc h
    rw [List.foldl_cons]
    exact ih _ (ensureKey_sorted _ (foldl_bump_sorted e.2 acc h))

theorem calc_fold_val (u : DepId) :
    ∀ (entries : EdgeMap) (acc : List (DepId × Nat)), SortedPairs acc →
      valC (entries.foldl
          (fun acc e => ensureKey (e.2.foldl bumpKey acc) e.1) acc) u
        = valC acc u + (entries.map (fun e => e.2.count u)).sum := by
  intro entries
  induction entries with
  | nil =>
    intro acc _
    simp
  | cons e rest ih =>
    intro acc hs
    rw [List.foldl_cons,
      ih _ (ensureKey_sorted _ (foldl_bump_sorted e.2 acc hs)),
      valC_ensureKey _ _ _ (foldl_bump_sorted e.2 acc hs),
      foldl_bump_val u e.2 acc hs]
    simp
    omega

theorem calc_fold_keys {x : DepId} :
    ∀ (entries : EdgeMap) (acc : List (DepId × Nat)),
      (x ∈ (entries.foldl
          (fun acc e => ensureKey (e.2.foldl bumpKey acc) e.1) acc).map
            (fun e => e.1) ↔
        x ∈ acc.map (fun e => e.1) ∨ x ∈ keysOf entries ∨
          ∃ e ∈ entries, x ∈ e.2) := by
  intro entries
  induction entries with
  | nil => intro acc; simp [keysOf]
  | cons e rest ih =>
    intro acc
    rw [List.foldl_cons, ih, mem_keys_ensureKey, foldl_bump_keys]
    simp [keysOf]
    tauto

theorem calculate_dependents_sorted (t : DepTree) :
    SortedPairs t.calculate_dependents :=
  calc_fold_sorted t.inner [] (by simp [SortedPairs])

theorem lookupC_of_mem_sorted {u : DepId} {c : Nat} :
    ∀ {l : List (DepId × Nat)}, SortedPairs l → (u, c) ∈ l →
      lookupC l u = some c := by
  intro l
  induction l with
  | nil => intro _ h; cases h
  | cons e t ih =>
    intro hs hm
    obtain ⟨a, cc⟩ := e
    obtain ⟨hhead, htail⟩ := List.pairwise_cons.mp hs
    rcases List.mem_cons.mp hm with he | hmt
    · obtain ⟨h1, h2⟩ := Prod.mk.injEq .. ▸ he
      subst h1
      subst h2
      rw [lookupC_cons_self]
    · have hau : ¬ a = u := by
        intro he2
        have := hhead (u, c) hmt
        rw [he2] at this
        simp at this
        rw [idLt_irrefl] at this
        cases this
      rw [lookupC_cons_ne hau]
      exact ih htail hmt

theorem calculate_dependents_count {t : DepTree} {u : DepId} {c : Nat}
    (h : (u, c) ∈ t.calculate_dependents) : c = occTotal t.inner u := by
  have hs := calculate_dependents_sorted t
  have hl := lookupC_of_mem_sorted hs h
  have hv : valC t.calculate_dependents u = occTotal t.inner u := by
    rw [DepTree.calculate_dependents, calc_fold_val u t.inner [] (by simp [SortedPairs])]
    simp [valC, lookupC, occTotal]
  rw [valC, hl] at hv
  exact hv

theorem calculate_dependents_keys {t : DepTree} {x : DepId} :
    x ∈ (t.calculate_dependents).map (fun e => e.1) ↔
      x ∈ keysOf t.inner ∨ ∃ e ∈ t.inner, x ∈ e.2 := by
  rw [DepTree.calculate_dependents, calc_fold_keys]
  simp

theorem calculate_dependents_nodup (t : DepTree) :
    ((t.calculate_dependents).map (fun e => e.1)).Nodup := by
  have hs := calculate_dependents_sorted t
  exact List.Pairwise.map _ (fun a b hlt => idLt_ne hlt) hs

/-! ### The two stable sorts -/

/-- Sort order the descending ranking queries return: counts strictly
decrease, and ties are in ascending identifier order. -/
def rankDesc (a b : DepId × Nat) : Prop :=
  b.2 < a.2 ∨ (a.2 = b.2 ∧ idLt a.1 b.1 = true)

/-- Sort order the ascending ranking queries return. -/
def rankAsc (a b : DepId × Nat) : Prop :=
  a.2 < b.2 ∨ (a.2 = b.2 ∧ idLt a.1 b.1 = true)

theorem perm_insertByDesc (y : DepId × Nat) :
    ∀ l, (insertByDesc y l).Perm (y :: l) := by
  intro l
  induction l with
  | nil => rw [insertByDesc]
  | cons z t ih =>
    rw [insertByDesc]
    split_ifs with h
    · exact (ih.cons z).trans (List.Perm.swap y z t)
    · rfl

theorem perm_sortDesc : ∀ l : List (DepId × Nat), (sortDesc l).Perm l := by
  intro l
  induction l with
  | nil => rw [sortDesc]; rfl
  | cons x t ih =>
    rw [sortDesc, List.foldr_cons]
    exact (perm_insertByDesc x (sortDesc t)).trans (ih.cons x)

theorem perm_insertByAsc (y : DepId × Nat) :
    ∀ l, (insertByAsc y l).Perm (y :: l) := by
  intro l
  induction l with
  | nil => rw [insertByAsc]
  | cons z t ih =>
    rw [insertByAsc]
    split_ifs with h
    · exact (ih.cons z).trans (List.Perm.swap y z t)
    · rfl

theorem perm_sortAsc : ∀ l : List (DepId × Nat), (sortAsc l).Perm l := by
  intro l
  induction l with
  | nil => rw [sortAsc]; rfl
  | cons x t ih =>
    rw [sortAsc, List.foldr_cons]
    exact (perm_insertByAsc x (sortAsc t)).trans (ih.cons x)

theorem mem_sortDesc {x : DepId × Nat} {l : List (DepId × Nat)} :
    x ∈ sortDesc l ↔ x ∈ l :=
  (perm_sortDesc l).mem_iff

theorem mem_sortAsc {x : DepId × Nat} {l : List (DepId × Nat)} :
    x ∈ sortAsc l ↔ x ∈ l :=
  (perm_sortAsc l).mem_iff

theorem insertByDesc_pairwise {x : DepId × Nat} :
    ∀ l, l.Pairwise rankDesc → (∀ y ∈ l, idLt x.1 y.1 = true) →
      (insertByDesc x l).Pairwise rankDesc := by
  intro l
  induction l with
  | nil =>
    intro _ _
    simp [insertByDesc]
  | cons y t ih =>
    intro hp hall
    obtain ⟨hy, ht⟩ := List.pairwise_cons.mp hp
    rw [insertByDesc]
    split_ifs with h
    · refine List.pairwise_cons.mpr ⟨?_, ih ht fun z hz => hall z (List.mem_cons_of_mem _ hz)⟩
      intro z hz
      have hz2 := (perm_insertByDesc x t).mem_iff.mp hz
      rcases List.mem_cons.mp hz2 with rfl | hzt
      · exact Or.inl h
      · exact hy z hzt
    · refine List.pairwise_cons.mpr ⟨?_, hp⟩
      intro z hz
      rcases List.mem_cons.mp hz with rfl | hzt
      · rcases Nat.lt_or_ge z.2 x.2 with hlt | hge
        · exact Or.inl hlt
        · exact Or.inr ⟨by omega, hall z (List.mem_cons_self _ _)⟩
      · rcases hy z hzt with hlt | ⟨heq, _⟩
        · rcases Nat.lt_or_ge z.2 x.2 with hlt2 | hge2
          · exact Or.inl hlt2
          · exact Or.inr ⟨by omega, hall z (List.mem_cons_of_mem _ hzt)⟩
        · rcases Nat.lt_or_ge z.2 x.2 with hlt2 | hge2
          · exact Or.inl hlt2
          · exact Or.inr ⟨by omega, hall z (List.mem_cons_of_mem _ hzt)⟩

theorem sortDesc_pairwise :
    ∀ l : List (DepId × Nat), l.Pairwise (fun a b => idLt a.1 b.1 = true) →
      (sortDesc l).Pairwise rankDesc := by
  intro l
  induction l with
  | nil =>
    intro _
    simp [sortDesc]
  | cons x t ih =>
    intro hp
    obtain ⟨hx, ht⟩ := List.pairwise_cons.mp hp
    rw [sortDesc, List.foldr_cons]
    refine insertByDesc_pairwise _ (ih ht) ?_
    intro y hy
    exact hx y ((perm_sortDesc t).mem_iff.mp hy)

theorem insertByAsc_pairwise {x : DepId × Nat} :
    ∀ l, l.Pairwise rankAsc → (∀ y ∈ l, idLt x.1 y.1 = true) →
      (insertByAsc x l).Pairwise rankAsc := by
  intro l
  induction l with
  | nil =>
    intro _ _
    simp [insertByAsc]
  | cons y t ih =>
    intro hp hall
    obtain ⟨hy, ht⟩ := List.pairwise_cons.mp hp
    rw [insertByAsc]
    split_ifs with h
    · refine List.pairwise_cons.mpr ⟨?_, ih ht fun z hz => hall z (List.mem_cons_of_mem _ hz)⟩
      intro z hz
      have hz2 := (perm_insertByAsc x t).mem_iff.mp hz
      rcases List.mem_cons.mp hz2 with rfl | hzt
      · exact Or.inl h
      · exact hy z hzt
    · refine List.pairwise_cons.mpr ⟨?_, hp⟩
      intro z hz
      rcases List.mem_cons.mp hz with rfl | hzt
      · rcases Nat.lt_or_ge x.2 z.2 with hlt | hge
        · exact Or.inl hlt
        · exact Or.inr ⟨by omega, hall z (List.mem_cons_self _ _)⟩
      · rcases hy z hzt with hlt | ⟨heq, _⟩
        · rcases Nat.lt_or_ge x.2 z.2 with hlt2 | hge2
          · exact Or.inl hlt2
          · exact Or.inr ⟨by omega, hall z (List.mem_cons_of_mem _ hzt)⟩
        · rcases Nat.lt_or_ge x.2 z.2 with hlt2 | hge2
          · exact Or.inl hlt2
          · exact Or.inr ⟨by omega, hall z (List.mem_cons_of_mem _ hzt)⟩

theorem sortAsc_pairwise :
    ∀ l : List (DepId × Nat), l.Pairwise (fun a b => idLt a.1 b.1 = true) →
      (sortAsc l).Pairwise rankAsc := by
  intro l
  induction l with
  | nil =>
    intro _
    simp [sortAsc]
  | cons x t ih =>
    intro hp
    obtain ⟨hx, ht⟩ := List.pairwise_cons.mp hp
    rw [sortAsc, List.foldr_cons]
    refine insertByAsc_pairwise _ (ih ht) ?_
    intro y hy
    exact hx y ((perm_sortAsc t).mem_iff.mp hy)

/-! ### Claim theorems -/

/-- C10: every traversal of a `DepTree` terminates for every edge map,
including cyclic or self-referential maps supplied directly through the
public `DepTree::new`: at the canonical fuel, the fueled embeddings of
`collect_dependencies` (behind `dependencies_of`) and `count_dependencies`
never exhaust their fuel, because each inserts a node into the visited set
before expanding it. -/
theorem c10_traversals_terminate (m : EdgeMap) (u : DepId) :
    (collectOpt (edgeFuel m) m u [] []).isSome = true ∧
    (countOpt (edgeFuel m) m u []).isSome = true := by
  constructor
  · rcases h : collectOpt (edgeFuel m) m u [] [] with _ | r
    · exact absurd h (collectOpt_isSome m u)
    · rfl
  · rcases h : countOpt (edgeFuel m) m u [] with _ | r
    · exact absurd h (countOpt_isSome m u)
    · rfl

/-- C9: for a unit that is neither a key of the map nor listed by any key,
`dependencies_of` and `dependents_of` both return the empty sequence (the
operations are total; nothing fails on unknown units). -/
theorem c9_unknown_unit_empty (m : EdgeMap) (u : DepId)
    (hk : u ∉ keysOf m) (hd : ∀ e ∈ m, u ∉ e.2) :
    (DepTree.new m).dependencies_of u = [] ∧
    (DepTree.new m).dependents_of u = [] := by
  constructor
  · have hg : mapGet m u = none := mapGet_eq_none hk
    rw [DepTree.dependencies_of]
    simp only [DepTree.new]
    rw [show edgeFuel m = (allIds m).length * ((allIds m).length + 1) + 1 from rfl]
    rw [collectOpt]
    simp [hg]
  · rw [DepTree.dependents_of]
    have : (DepTree.new m).inner.filter (fun e => decide (u ∈ e.2)) = [] := by
      rw [List.filter_eq_nil_iff]
      intro e he
      simp only [decide_eq_true_eq]
      exact hd e he
    rw [this]
    rfl

/-- C9 witness. -/
theorem c9_witness :
    (DepTree.new [((0,0),[(1,0)])]).dependencies_of (5,5) = [] ∧
    (DepTree.new [((0,0),[(1,0)])]).dependents_of (5,5) = [] :=
  c9_unknown_unit_empty [((0,0),[(1,0)])] (5,5) (by decide) (by decide)

/-- C7: the output of `most_dependents` (and equally `least_dependents`)
contains every declared unit exactly once: no unit appears twice, and a unit
appears iff it is a key of the map (even with in-degree zero) or is referenced
in some dependency list. -/
theorem c7_dependents_complete (t : DepTree) :
    ((t.most_dependents.map (fun e => e.1)).Nodup ∧
      (t.least_dependents.map (fun e => e.1)).Nodup) ∧
    ∀ x : DepId,
      (x ∈ t.most_dependents.map (fun e => e.1) ↔
        x ∈ keysOf t.inner ∨ ∃ e ∈ t.inner, x ∈ e.2) ∧
      (x ∈ t.least_dependents.map (fun e => e.1) ↔
        x ∈ keysOf t.inner ∨ ∃ e ∈ t.inner, x ∈ e.2) := by
  have hpm : (t.most_dependents.map (fun e => e.1)).Perm
      (t.calculate_dependents.map (fun e => e.1)) :=
    (perm_sortDesc t.calculate_dependents).map _
  have hpl : (t.least_dependents.map (fun e => e.1)).Perm
      (t.calculate_dependents.map (fun e => e.1)) :=
    (perm_sortAsc t.calculate_dependents).map _
  refine ⟨⟨hpm.nodup_iff.mpr (calculate_dependents_nodup t),
    hpl.nodup_iff.mpr (calculate_dependents_nodup t)⟩, fun x => ?_⟩
  constructor
  · rw [hpm.mem_iff]
    exact calculate_dependents_keys
  · rw [hpl.mem_iff]
    exact calculate_dependents_keys

/-- C3 counterexample: in the graph `{(0,0): [(1,0),(1,0)]}` (which `build`
accepts), exactly one unit lists `(1,0)`, yet `most_dependents` pairs `(1,0)`
with 2: `calculate_dependents` counts one per occurrence, not one per distinct
listing unit. -/
theorem c3_counterexample :
    (DepTreeBuilder.mk [((0,0),[(1,0),(1,0)]), ((1,0),[])]).build
        = .ok (DepTree.new [((0,0),[(1,0),(1,0)]), ((1,0),[])]) ∧
    (DepTree.new [((0,0),[(1,0),(1,0)]), ((1,0),[])]).most_dependents
        = [((1,0), 2), ((0,0), 0)] ∧
    (([((0,0),[(1,0),(1,0)]), ((1,0),[])] : EdgeMap).filter
        (fun e => (1,0) ∈ e.2)).length = 1 := by
  refine ⟨rfl, rfl, rfl⟩

/-- C3 amended: the count `most_dependents`/`least_dependents` pairs with a
unit `u` is the total number of occurrences of `u` across all dependency
lists (a unit listing `u` k times contributes k, not 1). -/
theorem c3_dependents_count (t : DepTree) (u : DepId) (c : Nat)
    (h : (u, c) ∈ t.most_dependents ∨ (u, c) ∈ t.least_dependents) :
    c = occTotal t.inner u := by
  rcases h with h | h
  · exact calculate_dependents_count
      (mem_sortDesc.mp (by rw [DepTree.most_dependents] at h; exact h))
  · exact calculate_dependents_count
      (mem_sortAsc.mp (by rw [DepTree.least_dependents] at h; exact h))

/-- C3 amended witness. -/
theorem c3_witness :
    (2 : Nat) = occTotal [((0,0),[(1,0),(1,0)]), ((1,0),[])] (1,0) :=
  c3_dependents_count (DepTree.new [((0,0),[(1,0),(1,0)]), ((1,0),[])])
    (1,0) 2 (Or.inl (by decide))

/-- C8: `most_dependencies` is sorted by count descending and
`least_dependencies` by count ascending, and entries with equal counts appear
in ascending identifier order (the map iteration order, preserved by the
stable sort). -/
theorem c8_rank_orders (t : DepTree) (hs : SortedEdge t.inner) :
    t.most_dependencies.Pairwise rankDesc ∧
    t.least_dependencies.Pairwise rankAsc := by
  have hkeys : (dependencyCounts t).Pairwise (fun a b => idLt a.1 b.1 = true) := by
    rw [dependencyCounts, keysOf, List.map_map]
    exact List.Pairwise.map _ (fun a b hr => hr) hs
  exact ⟨sortDesc_pairwise _ hkeys, sortAsc_pairwise _ hkeys⟩

/-- C8 witness. -/
theorem c8_witness :
    (DepTree.new [((0,0),[(1,0)]), ((1,0),[])]).most_dependencies.Pairwise rankDesc ∧
    (DepTree.new [((0,0),[(1,0)]), ((1,0),[])]).least_dependencies.Pairwise rankAsc :=
  c8_rank_orders (DepTree.new [((0,0),[(1,0)]), ((1,0),[])])
    (by rw [SortedEdge]; decide)

/-- C4 counterexample: `DepTree::new` is public and validates nothing, so a
`DepTree` instance can wrap a self-referential (hence cyclic) edge map. -/
theorem c4_counterexample :
    ((0,0) : DepId) ∈ depsL (DepTree.new [((0,0),[(0,0)])]).inner (0,0) ∧
    Relation.TransGen (edgeStep (DepTree.new [((0,0),[(0,0)])]).inner)
      (0,0) (0,0) :=
  ⟨by decide, Relation.TransGen.single ⟨[(0,0)], rfl, by decide⟩⟩

/-- C4 amended: every `DepTree` produced by a successful `build()` (rather
than every `DepTree` instance) wraps an edge map with no unit listing itself
and no cycle of dependency edges. -/
theorem c4_built_valid (b : DepTreeBuilder) (t : DepTree)
    (h : b.build = .ok t) :
    (∀ e ∈ t.inner, e.1 ∉ e.2) ∧
    ∀ u, ¬ Relation.TransGen (edgeStep t.inner) u u :=
  build_ok_valid h

/-- C4 amended witness. -/
theorem c4_witness :
    (∀ e ∈ (DepTree.new [((0,0),[(1,0)]), ((1,0),[])]).inner, e.1 ∉ e.2) ∧
    ∀ u, ¬ Relation.TransGen
      (edgeStep (DepTree.new [((0,0),[(1,0)]), ((1,0),[])]).inner) u u :=
  c4_built_valid (DepTreeBuilder.mk [((0,0),[(1,0)]), ((1,0),[])])
    (DepTree.new [((0,0),[(1,0)]), ((1,0),[])]) rfl

/-- C2 counterexample: in the graph `{(0,0): [(1,0),(1,0)]}` (accepted by
`build`), `dependencies_of (0,0)` contains the reachable unit `(1,0)` twice:
the source pushes a dependency into the output on every encounter and only
guards re-expansion with the visited set. -/
theorem c2_counterexample :
    (DepTreeBuilder.mk [((0,0),[(1,0),(1,0)]), ((1,0),[])]).build
        = .ok (DepTree.new [((0,0),[(1,0),(1,0)]), ((1,0),[])]) ∧
    ((DepTree.new [((0,0),[(1,0),(1,0)]), ((1,0),[])]).dependencies_of
        (0,0)).count (1,0) = 2 :=
  ⟨rfl, rfl⟩

/-- C2 amended: for every graph produced by a successful `build` and every
unit `u`, `dependencies_of u` contains an identifier iff that identifier is
transitively reachable from `u` along declared edges (so its content, as a
set, is exactly the reachable set); an identifier reached along several paths
or duplicate list entries may however appear several times. -/
theorem c2_dependencies_reachable (b : DepTreeBuilder) (t : DepTree)
    (h : b.build = .ok t) (u x : DepId) :
    x ∈ t.dependencies_of u ↔
      Relation.TransGen (edgeStep t.inner) u x := by
  have h2 := dependencies_of_iff t.inner u x
  cases t
  exact h2

/-- C2 amended witness. -/
theorem c2_witness :
    ((1,0) : DepId) ∈ (DepTree.new [((0,0),[(1,0)]), ((1,0),[])]).dependencies_of (0,0) ↔
      Relation.TransGen (edgeStep (DepTree.new [((0,0),[(1,0)]), ((1,0),[])]).inner)
        (0,0) (1,0) :=
  c2_dependencies_reachable
    (DepTreeBuilder.mk [((0,0),[(1,0)]), ((1,0),[])])
    (DepTree.new [((0,0),[(1,0)]), ((1,0),[])]) rfl (0,0) (1,0)

/-- C1 counterexample: in `{(0,0): [(1,0)], (1,0): [(1,0)]}` the unit `(1,0)`
lists itself, yet `build` fails with Circular-dependency (the walk from the
earlier unit `(0,0)` reaches `(1,0)` and sees the loop as a cycle first), not
with Self-dependency naming `(1,0)`. -/
theorem c1_counterexample :
    ((1,0) : DepId) ∈ depsL [((0,0),[(1,0)]), ((1,0),[(1,0)])] (1,0) ∧
    (DepTreeBuilder.mk [((0,0),[(1,0)]), ((1,0),[(1,0)])]).build
      = .error (.circularDependency (0,0) (1,0) "(0, 0) -> (1, 0)") ∧
    (DepTreeBuilder.mk [((0,0),[(1,0)]), ((1,0),[(1,0)])]).build
      ≠ .error (.selfDependency (1,0)) := by
  refine ⟨by decide, rfl, fun hc => ?_⟩
  rw [show (DepTreeBuilder.mk [((0,0),[(1,0)]), ((1,0),[(1,0)])]).build
      = .error (.circularDependency (0,0) (1,0) "(0, 0) -> (1, 0)") from rfl] at hc
  injection hc with h2
  exact DepTreeBuilderError.noConfusion h2

/-- C1 amended: if some unit `u` lists itself, `build` always fails — but the
error is the Self-dependency error naming `u` (only) when `u`'s entry is the
first one iteration reaches, e.g. when it is the least key; when an earlier
unit's cycle walk reaches `u` first, the reported error is Circular-dependency
instead. -/
theorem c1_self_dependency_fails (m : EdgeMap) (u : DepId) (ds : List DepId)
    (hmem : (u, ds) ∈ m) (hself : u ∈ ds) :
    (∃ e, (DepTreeBuilder.mk m).build = .error e) ∧
    (∀ ds0 rest, m = (u, ds0) :: rest → u ∈ ds0 →
      (DepTreeBuilder.mk m).build = .error (.selfDependency u)) := by
  constructor
  · rcases hb : (DepTreeBuilder.mk m).build with e | t
    · exact ⟨e, rfl⟩
    · obtain ⟨hloop, hinner⟩ := build_ok_loop hb
      have hok := buildLoopOpt_ok m m [] t.inner hloop
      exact absurd hself (hok.2 (u, ds) hmem)
  · intro ds0 rest hm hself0
    have hloop : buildLoopOpt m m [] = some (.error (.selfDependency u)) := by
      conv_lhs => rw [hm]
      rw [buildLoopOpt, if_pos hself0]
    rw [DepTreeBuilder.build]
    simp [hloop, Except.map]

/-- C1 amended witness. -/
theorem c1_witness :
    (DepTreeBuilder.mk [((1,0),[(1,0)]), ((2,0),[])]).build
      = .error (.selfDependency (1,0)) :=
  (c1_self_dependency_fails [((1,0),[(1,0)]), ((2,0),[])] (1,0) [(1,0)]
    (by decide) (by decide)).2 [(1,0)] [((2,0),[])] rfl (by decide)

/-- Symbolic evaluation of `build` on the minimal two-cycle `A → B → A`
(with `A` the smaller key): the walk from `A` pushes `A` then `B`, revisits
`A` on the stack, and reports the pair `(first, last) = (A, B)` with the
formatted stack as trace. -/
theorem build_two_cycle {A B : DepId} (hAB : idLt A B = true) :
    (DepTreeBuilder.mk [(A,[B]), (B,[A])]).build
      = .error (.circularDependency A B (fmtId A ++ " -> " ++ fmtId B)) := by
  have hne : A ≠ B := idLt_ne hAB
  have hBA : ¬ B = A := fun h => hne h.symm
  have hab : (A == B) = false := by simp [hne]
  have mgA : mapGet [(A,[B]), (B,[A])] A = some [B] := by
    simp [mapGet, List.find?]
  have mgB : mapGet [(A,[B]), (B,[A])] B = some [A] := by
    simp [mapGet, List.find?, hab]
  have dA : depsL [(A,[B]), (B,[A])] A = [B] := by simp [depsL, mgA]
  have dB : depsL [(A,[B]), (B,[A])] B = [A] := by simp [depsL, mgB]
  have e1 : hcdOpt 17 [(A,[B]), (B,[A])] A [] [A, B] = some (true, [], [A, B]) := by
    simp [hcdOpt]
  have e2 : hcdList 18 [(A,[B]), (B,[A])] [A] [] [A, B] = some (true, [], [A, B]) := by
    simp [hcdList, e1]
  have e3 : hcdOpt 19 [(A,[B]), (B,[A])] B [] [A] = some (true, [], [A, B]) := by
    simp [hcdOpt, dB, e2, hBA]
  have e4 : hcdList 20 [(A,[B]), (B,[A])] [B] [] [A] = some (true, [], [A, B]) := by
    simp [hcdList, e3]
  have e5 : hcdOpt 21 [(A,[B]), (B,[A])] A [] [] = some (true, [], [A, B]) := by
    simp [hcdOpt, dA, e4]
  have hfuel : edgeFuel [(A,[B]), (B,[A])] = 21 := rfl
  have hloop : buildLoopOpt [(A,[B]), (B,[A])] [(A,[B]), (B,[A])] []
      = some (.error (.circularDependency A B (traceStr [A, B]))) := by
    rw [buildLoopOpt]
    rw [if_neg (by simp [hne])]
    rw [hfuel, e5]
    simp
  rw [DepTreeBuilder.build]
  simp only [hloop]
  rfl

/-- C6: for every two distinct units forming the minimal cycle A → B → A with
no self-reference, `build` fails with Circular-dependency, and both the
reported (first, last) pair and the reported trace contain both A and B. -/
theorem c6_two_cycle (A B : DepId) (hne : A ≠ B) :
    ∃ f l tr,
      (DepTreeBuilder.mk (if idLt A B = true
          then [(A,[B]), (B,[A])] else [(B,[A]), (A,[B])])).build
        = .error (.circularDependency f l tr) ∧
      ((f = A ∧ l = B) ∨ (f = B ∧ l = A)) ∧
      tr = fmtId f ++ " -> " ++ fmtId l := by
  by_cases h : idLt A B = true
  · rw [if_pos h]
    exact ⟨A, B, _, build_two_cycle h, Or.inl ⟨rfl, rfl⟩, rfl⟩
  · have hBA : idLt B A = true := (idLt_total hne).resolve_left h
    rw [if_neg h]
    exact ⟨B, A, _, build_two_cycle hBA, Or.inr ⟨rfl, rfl⟩, rfl⟩

/-- C6 witness. -/
theorem c6_witness :
    ∃ f l tr,
      (DepTreeBuilder.mk (if idLt (0,0) (1,0) = true
          then [((0,0),[(1,0)]), ((1,0),[(0,0)])]
          else [((1,0),[(0,0)]), ((0,0),[(1,0)])])).build
        = .error (.circularDependency f l tr) ∧
      ((f = (0,0) ∧ l = (1,0)) ∨ (f = (1,0) ∧ l = (0,0))) ∧
      tr = fmtId f ++ " -> " ++ fmtId l :=
  c6_two_cycle (0,0) (1,0) (by decide)


/-- C5: for the edge map `{1:[2,3], 2:[3], 3:[]}` with arbitrary fixed
version components, `most_dependencies` returns exactly
`[(1,3), (2,1), (3,0)]`: unit 1 counts 3 (edges 1→2, 1→3 and 2→3 on its own
walk), unit 2 counts 1, unit 3 counts 0, sorted descending by count. -/
theorem c5_example (v1 v2 v3 : Nat) :
    (DepTree.new [((1,v1),[(2,v2),(3,v3)]), ((2,v2),[(3,v3)]),
        ((3,v3),[])]).most_dependencies
      = [((1,v1), 3), ((2,v2), 1), ((3,v3), 0)] := by
  have h21 : ((2,v2) : DepId) ≠ (1,v1) := by simp
  have h31 : ((3,v3) : DepId) ≠ (1,v1) := by simp
  have h32 : ((3,v3) : DepId) ≠ (2,v2) := by simp
  have h12 : ((1,v1) == ((2,v2) : DepId)) = false := by simp
  have h13 : ((1,v1) == ((3,v3) : DepId)) = false := by simp
  have h23 : ((2,v2) == ((3,v3) : DepId)) = false := by simp
  have mg1 : mapGet [((1,v1),[(2,v2),(3,v3)]), ((2,v2),[(3,v3)]), ((3,v3),[])]
      (1,v1) = some [(2,v2),(3,v3)] := by
    simp [mapGet, List.find?]
  have mg2 : mapGet [((1,v1),[(2,v2),(3,v3)]), ((2,v2),[(3,v3)]), ((3,v3),[])]
      (2,v2) = some [(3,v3)] := by
    simp [mapGet, List.find?, h12]
  have mg3 : mapGet [((1,v1),[(2,v2),(3,v3)]), ((2,v2),[(3,v3)]), ((3,v3),[])]
      (3,v3) = some [] := by
    simp [mapGet, List.find?, h13, h23]
  have c1 : countOpt 43 [((1,v1),[(2,v2),(3,v3)]), ((2,v2),[(3,v3)]), ((3,v3),[])]
      (1,v1) [] = some (3, [(3,v3), (2,v2), (1,v1)]) := by
    simp [countOpt, countList, mg1, mg2, mg3, h21, h31, h32]
  have c2 : countOpt 43 [((1,v1),[(2,v2),(3,v3)]), ((2,v2),[(3,v3)]), ((3,v3),[])]
      (2,v2) [] = some (1, [(3,v3), (2,v2)]) := by
    simp [countOpt, countList, mg2, mg3, h32]
  have c3 : countOpt 43 [((1,v1),[(2,v2),(3,v3)]), ((2,v2),[(3,v3)]), ((3,v3),[])]
      (3,v3) [] = some (0, [(3,v3)]) := by
    simp [countOpt, countList, mg3]
  have d1 : countD [((1,v1),[(2,v2),(3,v3)]), ((2,v2),[(3,v3)]), ((3,v3),[])]
      (1,v1) = 3 := by
    rw [countD, show edgeFuel [((1,v1),[(2,v2),(3,v3)]), ((2,v2),[(3,v3)]),
      ((3,v3),[])] = 43 from rfl, c1]
    rfl
  have d2 : countD [((1,v1),[(2,v2),(3,v3)]), ((2,v2),[(3,v3)]), ((3,v3),[])]
      (2,v2) = 1 := by
    rw [countD, show edgeFuel [((1,v1),[(2,v2),(3,v3)]), ((2,v2),[(3,v3)]),
      ((3,v3),[])] = 43 from rfl, c2]
    rfl
  have d3 : countD [((1,v1),[(2,v2),(3,v3)]), ((2,v2),[(3,v3)]), ((3,v3),[])]
      (3,v3) = 0 := by
    rw [countD, show edgeFuel [((1,v1),[(2,v2),(3,v3)]), ((2,v2),[(3,v3)]),
      ((3,v3),[])] = 43 from rfl, c3]
    rfl
  rw [DepTree.most_dependencies, dependencyCounts]
  simp only [DepTree.new, keysOf, List.map_cons, List.map_nil, d1, d2, d3]
  rw [sortDesc]
  simp [insertByDesc]
